import Mathlib

/-!
Shallow embedding of the infospark inverted-index search engine
(`src/inverted_index.rs`) and proofs about the claims of its specification.

Modelling conventions:
* Rust `HashMap` is modelled by an association list; iteration order of a
  `HashMap` is unspecified in Rust, the list order plays that role here.
  `insert` replaces in place, fresh keys are appended at the end.
* `f64` arithmetic is modelled exactly over an arbitrary linear ordered
  field `K` (instantiated at `ℚ` for concrete evaluation and at `ℝ` for the
  statements that mention `log10`).  The `f64::log10` call of the BM25
  scoring is kept abstract as a function parameter `idfF` of the search,
  and is instantiated with `Real.logb 10` in the theorem about the scores.
* the tokenizer (`tokenize`), an external collaborator producing
  `(stemmed token, position)` pairs, is a function parameter `tok`.
* the `colored`/`regex` based highlighting of a snippet (which is total:
  it only wraps matches of the escaped terms in ANSI codes) is a function
  parameter `hl`; no claim depends on the highlighted text.
* a Rust panic is modelled by `Option.none`; `bincode` encode/decode is
  modelled as the identity on the record of serialized fields.
-/

set_option maxRecDepth 20000

namespace Infospark

/-- Lookup in an association list, models `HashMap::get`. -/
def alookup {α β : Type} [DecidableEq α] (k : α) : List (α × β) → Option β
  | [] => none
  | (k', v) :: rest => if k' = k then some v else alookup k rest

/-- Insert-or-replace, models `HashMap::insert` (fresh keys appended). -/
def aset {α β : Type} [DecidableEq α] (k : α) (v : β) : List (α × β) → List (α × β)
  | [] => [(k, v)]
  | (k', v') :: rest => if k' = k then (k, v) :: rest else (k', v') :: aset k v rest

/-- Removal of a key, models `HashMap::remove` (drops every binding of `k`). -/
def aremove {α β : Type} [DecidableEq α] (k : α) (l : List (α × β)) : List (α × β) :=
  l.filter (fun p => ! decide (p.1 = k))

/-- Append `x` to the vector stored under `k`, creating the entry when absent;
models `map.entry(k).or_insert_with(Vec::new).push(x)`. -/
def apush {α β : Type} [DecidableEq α] (k : α) (x : β) : List (α × List β) → List (α × List β)
  | [] => [(k, [x])]
  | (k', vs) :: rest => if k' = k then (k', vs ++ [x]) :: rest else (k', vs) :: apush k x rest

/-- Model of the `Document` struct. -/
structure Document where
  id : ℕ
  path : String
  content : String
  title : String
  tags : List String
  num_tokens : ℕ
  modified_time : ℕ
deriving DecidableEq, Repr

/-- Model of the `SearchResult` struct; `K` models `f64`. -/
structure SearchResult (K : Type) where
  doc : Document
  score : K
  snippet : String
  tags : List String
deriving DecidableEq, Repr

/-- Model of the `InvertedIndex` struct.  `search_cache` models the LRU cache
as a most-recently-used-first association list. -/
structure InvertedIndex (K : Type) where
  index : List (String × List (ℕ × List ℕ))
  documents : List (ℕ × Document)
  tags : List (String × List ℕ)
  next_doc_id : ℕ
  total_docs : ℕ
  avg_doc_length : K
  search_cache : List (String × List (SearchResult K))
  cache_capacity : ℕ
deriving DecidableEq, Repr

/-- Type of the external tokenizer collaborator: text to
(stemmed token, position) pairs. -/
def Tok : Type := String → List (String × ℕ)

variable {K : Type} [LinearOrderedField K]

/-- Model of `InvertedIndex::new` (default cache capacity 100). -/
def InvertedIndex.new (K : Type) [LinearOrderedField K] : InvertedIndex K :=
  ⟨[], [], [], 1, 0, 0, [], 100⟩

/-- Record of the fields that take part in (de)serialization: `next_doc_id`
and `search_cache` are `#[serde(skip)]` in the source. -/
structure SerializedIndex (K : Type) where
  index : List (String × List (ℕ × List ℕ))
  documents : List (ℕ × Document)
  tags : List (String × List ℕ)
  total_docs : ℕ
  avg_doc_length : K
  cache_capacity : ℕ
deriving DecidableEq, Repr

/-- Model of `InvertedIndex::to_serialized_data`; `bincode` encoding is
modelled as the identity on the record of serialized fields. -/
def InvertedIndex.to_serialized_data (ix : InvertedIndex K) : SerializedIndex K :=
  ⟨ix.index, ix.documents, ix.tags, ix.total_docs, ix.avg_doc_length, ix.cache_capacity⟩

/-- Model of `InvertedIndex::from_serialized_data`: rebuild the id counter from
`max(document ids) + 1` (`unwrap_or(0) + 1`), fail when the stored cache
capacity is zero, and start from an empty cache. -/
def InvertedIndex.from_serialized_data (s : SerializedIndex K) : Option (InvertedIndex K) :=
  let maxId := (s.documents.map Prod.fst).foldr max 0
  if s.cache_capacity = 0 then none
  else some ⟨s.index, s.documents, s.tags, maxId + 1, s.total_docs, s.avg_doc_length,
    [], s.cache_capacity⟩

/-- Character-level model of `str::starts_with`. -/
def strStartsWith (s pre : String) : Bool := pre.data.isPrefixOf s.data

/-- Character-level model of `str::ends_with`. -/
def strEndsWith (s post : String) : Bool := post.data.isSuffixOf s.data

/-- Character-level model of `str::to_lowercase` (ASCII fragment). -/
def strToLower (s : String) : String := String.mk (s.data.map Char.toLower)

/-- Character-level model of `str::trim`. -/
def strTrim (s : String) : String :=
  String.mk (((s.data.dropWhile Char.isWhitespace).reverse.dropWhile
    Char.isWhitespace).reverse)

/-- Drop the first `n` characters (models `&q[1..]` for an ASCII head). -/
def strDrop (s : String) (n : ℕ) : String := String.mk (s.data.drop n)

/-- Drop the last `n` characters. -/
def strDropRight (s : String) (n : ℕ) : String :=
  String.mk (s.data.take (s.data.length - n))

/-- Split-on-whitespace accumulator. -/
def splitWhitespaceAux : List Char → List Char → List String
  | [], cur => if cur.isEmpty then [] else [String.mk cur.reverse]
  | c :: cs, cur =>
    if c.isWhitespace then
      (if cur.isEmpty then [] else [String.mk cur.reverse]) ++ splitWhitespaceAux cs []
    else splitWhitespaceAux cs (c :: cur)

/-- Character-level model of `str::split_whitespace` (skips empty fragments). -/
def wordsOf (q : String) : List String := splitWhitespaceAux q.data []

/-- Group the tokenizer output into token ↦ positions, in first-occurrence
order; models the `doc_token_positions` accumulation of `add_document`. -/
def groupPositions (l : List (String × ℕ)) : List (String × List ℕ) :=
  l.foldl (fun acc tp => apush tp.1 tp.2 acc) []

/-- Model of `InvertedIndex::add_document`: index every token of the content
with its positions, register the document under each of its tags, store it,
and clear the search cache.  The aggregates `total_docs` / `avg_doc_length`
are *not* touched (mirroring the source). -/
def InvertedIndex.add_document (tok : Tok) (doc : Document) (ix : InvertedIndex K) :
    InvertedIndex K :=
  let groups := groupPositions (tok doc.content)
  { ix with
    index := groups.foldl (fun idx g => apush g.1 (doc.id, g.2) idx) ix.index
    tags := doc.tags.foldl (fun tg t => apush t doc.id tg) ix.tags
    documents := aset doc.id doc ix.documents
    search_cache := [] }

/-- Remove `d`'s entry from the postings list of token `t`, dropping the token
when its postings list becomes empty; models the per-token body of
`remove_document`. -/
def removeFromPostings (t : String) (d : ℕ) (idx : List (String × List (ℕ × List ℕ))) :
    List (String × List (ℕ × List ℕ)) :=
  match alookup t idx with
  | none => idx
  | some ps =>
    let ps' := ps.filter (fun e => ! decide (e.1 = d))
    if ps' = [] then aremove t idx else aset t ps' idx

/-- Remove `d` from the id set of tag `t`, dropping the tag when it becomes
empty; models the per-tag body of `remove_document`. -/
def removeFromTags (t : String) (d : ℕ) (tg : List (String × List ℕ)) :
    List (String × List ℕ) :=
  match alookup t tg with
  | none => tg
  | some ids =>
    let ids' := ids.filter (fun i => ! decide (i = d))
    if ids' = [] then aremove t tg else aset t ids' tg

/-- Model of `InvertedIndex::remove_document`: a no-op when the id is absent;
otherwise de-index the stored document's tokens and tags and clear the cache.
The aggregates are *not* touched (mirroring the source). -/
def InvertedIndex.remove_document (tok : Tok) (d : ℕ) (ix : InvertedIndex K) :
    InvertedIndex K :=
  match alookup d ix.documents with
  | none => ix
  | some doc =>
    { ix with
      documents := aremove d ix.documents
      index := (tok doc.content).foldl (fun idx tp => removeFromPostings tp.1 d idx) ix.index
      tags := doc.tags.foldl (fun tg t => removeFromTags t d tg) ix.tags
      search_cache := [] }

/-- Model of the pure tail of `InvertedIndex::load_documents_from_directory`:
apply the scheduled removals, then the scheduled additions, then recompute
`total_docs` and `avg_doc_length` from the document store, then clear the
cache.  The filesystem scan that schedules the operations is I/O and stays
outside the model. -/
def InvertedIndex.apply_directory_sync (tok : Tok) (removeIds : List ℕ)
    (newDocs : List Document) (ix : InvertedIndex K) : InvertedIndex K :=
  let ix1 := removeIds.foldl (fun j i => InvertedIndex.remove_document tok i j) ix
  let ix2 := newDocs.foldl (fun j d => InvertedIndex.add_document tok d j) ix1
  let n := ix2.documents.length
  let totalTokens : ℕ := (ix2.documents.map (fun p => p.2.num_tokens)).sum
  { ix2 with
    total_docs := n
    avg_doc_length := if 0 < n then (totalTokens : K) / (n : K) else 0
    search_cache := [] }

/-- Row step of the Levenshtein dynamic program: given the previous row
(suffix) and the freshly computed value to the left, produce the rest of the
new row. -/
def levGo (x : Char) : List Char → List ℕ → ℕ → List ℕ
  | [], _, _ => []
  | y :: ys, prev, leftNew =>
    let d0 := prev.headD 0
    let d1 := prev.tail.headD 0
    let cost : ℕ := if x = y then 0 else 1
    let cur := min (d1 + 1) (min (leftNew + 1) (d0 + cost))
    cur :: levGo x ys prev.tail cur

/-- Fold of the Levenshtein dynamic program over the first word. -/
def levFold (ys : List Char) : List Char → List ℕ → List ℕ
  | [], row => row
  | x :: xs, row => levFold ys xs ((row.headD 0 + 1) :: levGo x ys row (row.headD 0 + 1))

/-- Levenshtein edit distance on character lists (unit costs, standard
dynamic program); models the external `strsim::levenshtein` collaborator. -/
def lev (xs ys : List Char) : ℕ :=
  (levFold ys xs (List.range (ys.length + 1))).getLastD 0

/-- Levenshtein distance between two strings. -/
def levStr (a b : String) : ℕ := lev a.data b.data

/-- Stable insertion of `x` into a list sorted by `le`. -/
def insertLe {A : Type} (le : A → A → Bool) (x : A) : List A → List A
  | [] => [x]
  | y :: ys => if le x y then x :: y :: ys else y :: insertLe le x ys

/-- Stable insertion sort; models Rust's stable `sort_by` / `sort_by_key`
(for a total preorder comparator every stable sort produces the same list). -/
def sortBy {A : Type} (le : A → A → Bool) : List A → List A
  | [] => []
  | x :: xs => insertLe le x (sortBy le xs)

/-- Model of `InvertedIndex::find_fuzzy_matches`: all indexed tokens within
Levenshtein distance `FUZZY_THRESHOLD = 2` of the query token, paired with
their distance, stably sorted by ascending distance. -/
def InvertedIndex.find_fuzzy_matches (ix : InvertedIndex K) (q : String) :
    List (String × ℕ) :=
  sortBy (fun a b => decide (a.2 ≤ b.2))
    (ix.index.filterMap (fun p =>
      let d := levStr q p.1
      if d ≤ 2 then some (p.1, d) else none))

/-- Insert `(t ↦ ps)` into the per-document term map of document `d`; models
`candidate_docs.entry(doc_id).or_insert_with(HashMap::new).insert(token, positions)`. -/
def cinsert (d : ℕ) (t : String) (ps : List ℕ)
    (c : List (ℕ × List (String × List ℕ))) : List (ℕ × List (String × List ℕ)) :=
  aset d (aset t ps ((alookup d c).getD [])) c

/-- Candidate-collection loop of `perform_keyword_search_and_rank`.  `nTotal`
is the length of the whole query-term list (the code tests
`processed_query_terms.len() == 1`).  `none` models the early
`return Vec::new()` taken when a single-term query cannot be fuzzy-resolved. -/
def buildCandidates (ix : InvertedIndex K) (nTotal : ℕ) :
    List (String × Bool) → List (ℕ × List (String × List ℕ)) → List (String × String) →
    Option (List (ℕ × List (String × List ℕ)) × List (String × String))
  | [], c, f => some (c, f)
  | (t, w) :: rest, c, f =>
    match alookup t ix.index with
    | some entries =>
      buildCandidates ix nTotal rest (entries.foldl (fun cc e => cinsert e.1 t e.2 cc) c) f
    | none =>
      if w then buildCandidates ix nTotal rest c f
      else
        match (ix.find_fuzzy_matches t).head? with
        | some m =>
          match alookup m.1 ix.index with
          | some entries =>
            buildCandidates ix nTotal rest
              (entries.foldl (fun cc e => cinsert e.1 m.1 e.2 cc) c) (aset t m.1 f)
          | none => buildCandidates ix nTotal rest c f
        | none => if nTotal = 1 then none else buildCandidates ix nTotal rest c f

/-- Substitute a fuzzy resolution for a non-wildcard term; models the
`actual_term` computation. -/
def resolveTerm (f : List (String × String)) (t : String) (w : Bool) : String :=
  if w then t else (alookup t f).getD t

/-- Model of the `all_terms_present` conjunction: the document's term map
contains every resolved query term. -/
def allTermsPresent (terms : List (String × Bool)) (f : List (String × String))
    (tm : List (String × List ℕ)) : Bool :=
  terms.all (fun tw => (alookup (resolveTerm f tw.1 tw.2) tm).isSome)

/-- Token count of the stored document, `0` when the id is absent; models
`documents.get(&doc_id).map_or(0.0, |d| d.num_tokens as f64)`. -/
def InvertedIndex.docLen (ix : InvertedIndex K) (d : ℕ) : ℕ :=
  ((alookup d ix.documents).map (fun dd => dd.num_tokens)).getD 0

/-- BM25 term-frequency component with `k1 = 1.2`, `b = 0.75` and the
`avgdl.max(1.0)` floor of the source. -/
def bm25TfComp (K : Type) [LinearOrderedField K] (dl : ℕ) (avg : K) (tf : ℕ) : K :=
  ((tf : K) * (6 / 5 + 1)) /
    ((tf : K) + 6 / 5 * (1 - 3 / 4 + 3 / 4 * ((dl : K) / max avg 1)))

/-- Score contribution of one processed query term for document `d` with term
map `tm`; `idfF n df` abstracts `((n - df + 0.5) / (df + 0.5) + 1).log10()`.
Mirrors the `continue` on `tf == 0.0` and the `0.5` fuzzy penalty. -/
def termContribution (idfF : ℕ → ℕ → K) (ix : InvertedIndex K)
    (f : List (String × String)) (tm : List (String × List ℕ)) (d : ℕ)
    (tw : String × Bool) : K :=
  let actual := resolveTerm f tw.1 tw.2
  let tf := ((alookup actual tm).getD []).length
  if tf = 0 then 0
  else
    let df := ((alookup actual ix.index).getD []).length
    let base := idfF ix.total_docs df * bm25TfComp K (ix.docLen d) ix.avg_doc_length tf
    if tw.2 = false ∧ (alookup tw.1 f).isSome then base * (1 / 2) else base

/-- BM25 score of a candidate document: sum of the term contributions. -/
def docScore (idfF : ℕ → ℕ → K) (ix : InvertedIndex K) (f : List (String × String))
    (terms : List (String × Bool)) (tm : List (String × List ℕ)) (d : ℕ) : K :=
  (terms.map (termContribution idfF ix f tm d)).sum

/-- Resolved highlight terms handed to the snippet generator. -/
def highlightTerms (f : List (String × String)) (terms : List (String × Bool)) :
    List String :=
  terms.map (fun tw => if tw.2 then tw.1 else (alookup tw.1 f).getD tw.1)

/-- Byte-prefix of a string: `some` of the first `n` bytes when `n` is a UTF-8
character boundary of `s`, `none` (a Rust panic) otherwise; models the slice
`&s[..n]`. -/
def byteTakeAux : List Char → ℕ → Option (List Char)
  | _, 0 => some []
  | [], _ + 1 => none
  | c :: cs, n + 1 =>
    if c.utf8Size ≤ n + 1 then (byteTakeAux cs (n + 1 - c.utf8Size)).map (c :: ·)
    else none

/-- String version of `byteTakeAux`. -/
def rustByteTake (s : String) (n : ℕ) : Option String :=
  (byteTakeAux s.data n).map String.mk

/-- Byte offset of the first occurrence of `needle` in `hay`, models
`str::find` for a string pattern. -/
def subOffAux (needle : List Char) : List Char → Option ℕ
  | [] => if needle.isEmpty then some 0 else none
  | c :: cs =>
    if needle.isPrefixOf (c :: cs) then some 0
    else (subOffAux needle cs).map (· + c.utf8Size)

/-- String version of `subOffAux`. -/
def strFind (hay needle : String) : Option ℕ := subOffAux needle.data hay.data

/-- Byte offset of the first case of any highlight term occurring in the
lowercased content; models the `first_match_idx` loop. -/
def firstMatchIdx : List String → String → Option ℕ
  | [], _ => none
  | t :: rest, cl =>
    match strFind cl t with
    | some i => some i
    | none => firstMatchIdx rest cl

/-- Model of the `char_indices` window extraction of the snippet generator:
the loops leave `byte_start = 0` when `cstart` is not a valid character
ordinal and `byte_end = content.len()` when `cend` is not; slicing at those
character boundaries equals the char-level slice below. -/
def windowSlice (content : String) (cstart cend : ℕ) : String :=
  let cs := content.data
  let i := if cstart < cs.length then cstart else 0
  let j := if cend < cs.length then cend else cs.length
  String.mk ((cs.take j).drop i)

/-- Snippet of a keyword-search result: a ±50 window around the first match of
a highlight term, or the first `min(len, 150)` *bytes* of the content
(`none` models the panic when byte 150 is not a character boundary). -/
def mkSnippetKeyword (hl : List String → String → String) (hterms : List String)
    (doc : Document) : Option String :=
  let contentLower := strToLower doc.content
  match firstMatchIdx hterms contentLower with
  | some idx =>
    let len0 := (hterms.headD "").utf8ByteSize
    let cstart := idx - 50
    let cend := min (idx + len0 + 50) contentLower.utf8ByteSize
    some ("..." ++ hl hterms (windowSlice doc.content cstart cend) ++ "...")
  | none =>
    (rustByteTake doc.content (min doc.content.utf8ByteSize 150)).map (· ++ "...")

/-- Snippet of a phrase-search result: the window is centred on the first
occurrence of the literal lowercased phrase; same fallback as the keyword
snippet. -/
def mkSnippetPhrase (hl : List String → String → String) (hterms : List String)
    (phraseText : String) (doc : Document) : Option String :=
  let contentLower := strToLower doc.content
  let target := strToLower phraseText
  match strFind contentLower target with
  | some idx =>
    let cstart := idx - 50
    let cend := min (idx + target.utf8ByteSize + 50) contentLower.utf8ByteSize
    some ("..." ++ hl hterms (windowSlice doc.content cstart cend) ++ "...")
  | none =>
    (rustByteTake doc.content (min doc.content.utf8ByteSize 150)).map (· ++ "...")

/-- Turn the ranked `(score, doc_id)` list into search results, skipping ids
absent from the store; `none` models a panic inside the snippet generator. -/
def buildResults (mkSnip : Document → Option String) (ix : InvertedIndex K) :
    List (K × ℕ) → Option (List (SearchResult K))
  | [] => some []
  | (s, d) :: rest =>
    match alookup d ix.documents with
    | none => buildResults mkSnip ix rest
    | some doc =>
      match mkSnip doc with
      | none => none
      | some sn => (buildResults mkSnip ix rest).map (fun rs => ⟨doc, s, sn, doc.tags⟩ :: rs)

/-- Descending stable sort of `(score, doc id)` pairs; models
`ranked_results.sort_by(|a, b| b.0.partial_cmp(&a.0) ...)`. -/
def descPairs {K : Type} [LinearOrderedField K] (l : List (K × ℕ)) : List (K × ℕ) :=
  sortBy (fun a b => decide (b.1 ≤ a.1)) l

/-- Model of `InvertedIndex::perform_keyword_search_and_rank`.  The outer
`none` models a panic; the early single-unresolved-term return yields
`some []`. -/
def InvertedIndex.perform_keyword_search_and_rank (hl : List String → String → String)
    (idfF : ℕ → ℕ → K) (ix : InvertedIndex K) (terms : List (String × Bool)) :
    Option (List (SearchResult K)) :=
  match buildCandidates ix terms.length terms [] [] with
  | none => some []
  | some (cands, f) =>
    let inter := cands.filter (fun p => allTermsPresent terms f p.2)
    buildResults (mkSnippetKeyword hl (highlightTerms f terms)) ix
      (descPairs (inter.map (fun p => (docScore idfF ix f terms p.2 p.1, p.1))))

/-- Collect a postings list into a map (later bindings of the same id win);
models `.collect::<HashMap<u32, Vec<usize>>>()`. -/
def collectMap (l : List (ℕ × List ℕ)) : List (ℕ × List ℕ) :=
  l.foldl (fun m e => aset e.1 e.2 m) []

/-- Intersection loop of `perform_phrase_search_and_rank`: seed the candidate
map from the first token's postings, then for every further token retain only
documents that also carry it and record its positions.  `none` models the
short-circuit `return Vec::new()` on a token with no postings entry. -/
def phraseCollect (ix : InvertedIndex K) :
    List String → Bool → List (ℕ × List (String × List ℕ)) →
    Option (List (ℕ × List (String × List ℕ)))
  | [], _, acc => some acc
  | t :: rest, isFirst, acc =>
    match alookup t ix.index with
    | none => none
    | some entries =>
      if isFirst then
        phraseCollect ix rest false (entries.foldl (fun c e => cinsert e.1 t e.2 c) acc)
      else
        let em := collectMap entries
        let acc1 := acc.filter (fun p => (alookup p.1 em).isSome)
        let acc2 := em.foldl
          (fun c e => if (alookup e.1 c).isSome then cinsert e.1 t e.2 c else c) acc1
        phraseCollect ix rest false acc2

/-- Check that tokens `ts` (the phrase tail) occur at the consecutive
positions `p + i`, `i` counting from the given start index. -/
def alignFrom (tm : List (String × List ℕ)) (p : ℕ) : List String → ℕ → Bool
  | [], _ => true
  | t :: rest, i => ((alookup t tm).getD []).contains (p + i) && alignFrom tm p rest (i + 1)

/-- Number of verified phrase alignments of a document: occurrences `p` of the
first token such that token `i` of the phrase occurs at `p + i` for all `i`. -/
def phraseMatchCount (tm : List (String × List ℕ)) (ts : List String) : ℕ :=
  ((alookup (ts.headD "") tm).getD []).countP (fun p => alignFrom tm p (ts.drop 1) 1)

/-- Scored pairs of the phrase search: each intersected document with a
non-zero verified-alignment count. -/
def phraseRankPairs (K : Type) [LinearOrderedField K] (qtoks : List String)
    (common : List (ℕ × List (String × List ℕ))) : List (K × ℕ) :=
  common.filterMap (fun p =>
    let c := phraseMatchCount p.2 qtoks
    if c = 0 then none else some ((c : K), p.1))

/-- Model of `InvertedIndex::perform_phrase_search_and_rank`. -/
def InvertedIndex.perform_phrase_search_and_rank (tok : Tok)
    (hl : List String → String → String) (ix : InvertedIndex K) (phraseText : String) :
    Option (List (SearchResult K)) :=
  let qtoks := (tok phraseText).map Prod.fst
  if qtoks.isEmpty then some []
  else
    match phraseCollect ix qtoks true [] with
    | none => some []
    | some common =>
      buildResults (mkSnippetPhrase hl qtoks phraseText) ix
        (descPairs (phraseRankPairs K qtoks common))

/-- Model of the tag branch of `search`: every stored document carrying the
tag, with constant score `1.0` and placeholder snippet, sorted by descending
score. -/
def InvertedIndex.tag_search (ix : InvertedIndex K) (name : String) :
    List (SearchResult K) :=
  let base : List (SearchResult K) :=
    match alookup name ix.tags with
    | none => []
    | some ids =>
      ids.filterMap (fun d =>
        (alookup d ix.documents).map (fun doc => ⟨doc, 1, "...", doc.tags⟩))
  sortBy (fun a b => decide (b.score ≤ a.score)) base

/-- LRU-cache lookup: a hit returns the value and promotes the entry to
most-recently-used; models `LruCache::get`. -/
def cacheGet {V : Type} (q : String) (c : List (String × V)) :
    Option (V × List (String × V)) :=
  match alookup q c with
  | none => none
  | some v => some (v, (q, v) :: c.filter (fun p => ! decide (p.1 = q)))

/-- LRU-cache insertion at capacity `cap`, evicting the least-recently-used
entry; models `LruCache::put`. -/
def cachePut {V : Type} (cap : ℕ) (q : String) (v : V) (c : List (String × V)) :
    List (String × V) :=
  ((q, v) :: c.filter (fun p => ! decide (p.1 = q))).take cap

/-- Model of the per-word cleaning
`trim_end_matches(|c| !c.is_alphanumeric() && c != '*')`. -/
def cleanWord (w : String) : String :=
  String.mk ((w.data.reverse.dropWhile
    (fun c => (! c.isAlphanum) && (! decide (c = '*')))).reverse)

/-- Wildcard expansion of a cleaned word ending in `*`: every indexed token
starting with a stemmed form of the part before the `*`, marked as
wildcard-origin. -/
def wildcardExpansion (ix : InvertedIndex K) (tok : Tok) (cw : String) :
    List (String × Bool) :=
  ((tok (strDropRight cw 1)).map Prod.fst).flatMap (fun sp =>
    ((ix.index.map Prod.fst).filter (fun it => strStartsWith it sp)).map
      (fun it => (it, true)))

/-- Word-processing loop of the keyword branch of `search`.  `nWords` is
`query.split_whitespace().count()`; `none` models the early
`return Vec::new()` taken when a single-word wildcard query matches nothing
while no terms were collected. -/
def processWords (ix : InvertedIndex K) (tok : Tok) (nWords : ℕ) :
    List String → List (String × Bool) → Option (List (String × Bool))
  | [], acc => some acc
  | w :: rest, acc =>
    let cw := cleanWord w
    if strEndsWith cw "*" && decide (1 < cw.length) then
      let ws := wildcardExpansion ix tok cw
      if ws.isEmpty then
        if (nWords == 1) && acc.isEmpty then none
        else processWords ix tok nWords rest acc
      else processWords ix tok nWords rest (acc ++ ws)
    else
      let toks := ((tok cw).map Prod.fst).filter (fun t => ! decide (t = ""))
      processWords ix tok nWords rest (acc ++ toks.map (fun t => (t, false)))

/-- Classification and computation of the search results for a non-empty,
non-cached query.  `some none` models the early `return Vec::new()` paths of
`search` that bypass the cache insertion; the outer `none` models a panic. -/
def computeResults (tok : Tok) (hl : List String → String → String)
    (idfF : ℕ → ℕ → K) (ix : InvertedIndex K) (q : String) :
    Option (Option (List (SearchResult K))) :=
  if strStartsWith q "#" then
    let tagName := strToLower (strTrim (strDrop q 1))
    if tagName = "" then some none
    else some (some (ix.tag_search tagName))
  else if strStartsWith q "\"" && strEndsWith q "\"" && decide (1 < q.utf8ByteSize) then
    (ix.perform_phrase_search_and_rank tok hl (strDropRight (strDrop q 1) 1)).map some
  else
    match processWords ix tok (wordsOf q).length (wordsOf (strToLower q)) [] with
    | none => some none
    | some [] => some none
    | some ts => (ix.perform_keyword_search_and_rank hl idfF ts).map some

/-- Model of `InvertedIndex::search`: empty queries yield no results before
anything else; then the cache is consulted (a hit returns the cached list);
a computed result list is inserted into the cache, while the early-return
paths leave the cache untouched.  The returned index only differs in the
cache (search is `&self` in Rust; the cache sits behind a mutex). -/
def InvertedIndex.search (tok : Tok) (hl : List String → String → String)
    (idfF : ℕ → ℕ → K) (ix : InvertedIndex K) (q : String) :
    Option (List (SearchResult K) × InvertedIndex K) :=
  if q = "" then some ([], ix)
  else
    match cacheGet q ix.search_cache with
    | some rc => some (rc.1, { ix with search_cache := rc.2 })
    | none =>
      match computeResults tok hl idfF ix q with
      | none => none
      | some none => some ([], ix)
      | some (some rs) =>
        some (rs, { ix with search_cache := cachePut ix.cache_capacity q rs ix.search_cache })

/-! ### Specification-side definitions -/

/-- Invariant claimed by the data model of the spec: a document id appears at
most once in any single token's postings list. -/
def PostingsUnique (ix : InvertedIndex K) : Prop :=
  ∀ p ∈ ix.index, (p.2.map Prod.fst).Nodup

instance (ix : InvertedIndex K) : Decidable (PostingsUnique ix) := by
  unfold PostingsUnique; infer_instance

/-- Documents are stored under their own id (true of every state the engine
builds, which only ever runs `documents.insert(doc.id, doc)`). -/
def StoreKeyed (ix : InvertedIndex K) : Prop :=
  ∀ p ∈ ix.documents, p.2.id = p.1

instance (ix : InvertedIndex K) : Decidable (StoreKeyed ix) := by
  unfold StoreKeyed; infer_instance

/-- Postings entry of document `d` for token `t` (the unique entry when
`PostingsUnique` holds). -/
def docEntry (ix : InvertedIndex K) (t : String) (d : ℕ) : Option (List ℕ) :=
  (((alookup t ix.index).getD []).find? (fun e => decide (e.1 = d))).map Prod.snd

/-- Positions of token `t` in document `d` according to the postings index. -/
def docPositions (ix : InvertedIndex K) (t : String) (d : ℕ) : List ℕ :=
  (docEntry ix t d).getD []

/-- Resolution of a processed query term as the spec describes it: wildcard
terms and exactly-indexed terms stand for themselves; otherwise the closest
fuzzy match (when one exists within the threshold); the boolean records
whether the fuzzy penalty applies. -/
def resolveForScore (ix : InvertedIndex K) (t : String) (w : Bool) : String × Bool :=
  if w then (t, false)
  else
    match alookup t ix.index with
    | some _ => (t, false)
    | none =>
      match (ix.find_fuzzy_matches t).head? with
      | some m => (m.1, true)
      | none => (t, false)

/-- Literal `log10`-based BM25 idf of the spec:
`log10((N - df + 0.5) / (df + 0.5) + 1)`. -/
noncomputable def bm25Idf (n df : ℕ) : ℝ :=
  Real.logb 10 (((n : ℝ) - (df : ℝ) + 1 / 2) / ((df : ℝ) + 1 / 2) + 1)

/-- Score contribution of one query term to a qualifying document, exactly as
the specification states it (idf times tf component, halved for terms that
were fuzzy-resolved). -/
noncomputable def contribClaim (ix : InvertedIndex ℝ) (d : ℕ) (tw : String × Bool) : ℝ :=
  let a := (resolveForScore ix tw.1 tw.2).1
  let fz := (resolveForScore ix tw.1 tw.2).2
  let tf := (docPositions ix a d).length
  let df := ((alookup a ix.index).getD []).length
  (if fz then (1 : ℝ) / 2 else 1) *
    (bm25Idf ix.total_docs df * bm25TfComp ℝ (ix.docLen d) ix.avg_doc_length tf)

/-- Qualification of document `d` for a keyword query: the postings of every
resolved query term contain `d`. -/
def Qualifies (ix : InvertedIndex K) (terms : List (String × Bool)) (d : ℕ) : Prop :=
  ∀ tw ∈ terms, ∃ e ∈ (alookup (resolveForScore ix tw.1 tw.2).1 ix.index).getD [], e.1 = d

/-- Specification-side phrase alignment check: token `i` of the phrase tail
occurs at position `p + i` in document `d`. -/
def alignIdx (ix : InvertedIndex K) (d p : ℕ) : List String → ℕ → Bool
  | [], _ => true
  | t :: rest, i => (docPositions ix t d).contains (p + i) && alignIdx ix d p rest (i + 1)

/-- Specification-side number of verified phrase alignments of document `d`:
occurrences `p` of the first token with every later token at `p + i`. -/
def phraseCountClaim (ix : InvertedIndex K) (ts : List String) (d : ℕ) : ℕ :=
  (docPositions ix (ts.headD "") d).countP (fun p => alignIdx ix d p (ts.drop 1) 1)

/-! ### Association-list lemmas -/

theorem alookup_eq_none {α β : Type} [DecidableEq α] (k : α) (l : List (α × β)) :
    alookup k l = none ↔ k ∉ l.map Prod.fst := by
  induction l with
  | nil => simp [alookup]
  | cons p rest ih =>
    obtain ⟨k', v⟩ := p
    simp only [alookup, List.map_cons, List.mem_cons]
    by_cases h : k' = k
    · subst h; simp
    · simp [h, ih, (Ne.symm h : k ≠ k')]

theorem alookup_isSome {α β : Type} [DecidableEq α] (k : α) (l : List (α × β)) :
    (alookup k l).isSome ↔ k ∈ l.map Prod.fst := by
  rcases ho : alookup k l with _ | v
  · simpa [ho] using (alookup_eq_none k l).mp ho
  · simp only [Option.isSome_some, true_iff]
    by_contra hmem
    rw [← alookup_eq_none k l] at hmem
    simp [ho] at hmem

theorem mem_of_alookup {α β : Type} [DecidableEq α] {k : α} {v : β} {l : List (α × β)}
    (h : alookup k l = some v) : (k, v) ∈ l := by
  induction l with
  | nil => simp [alookup] at h
  | cons p rest ih =>
    obtain ⟨k', v'⟩ := p
    by_cases hk : k' = k
    · subst hk
      simp [alookup] at h
      simp [h]
    · simp [alookup, hk] at h
      simp [ih h]

theorem alookup_aset_self {α β : Type} [DecidableEq α] (k : α) (v : β) (l : List (α × β)) :
    alookup k (aset k v l) = some v := by
  induction l with
  | nil => simp [aset, alookup]
  | cons p rest ih =>
    obtain ⟨k', v'⟩ := p
    by_cases h : k' = k <;> simp [aset, h, alookup, ih]

theorem alookup_aset_ne {α β : Type} [DecidableEq α] {k k' : α} (v : β) (l : List (α × β))
    (h : k' ≠ k) : alookup k' (aset k v l) = alookup k' l := by
  induction l with
  | nil => simp [aset, alookup, (Ne.symm h : k ≠ k')]
  | cons p rest ih =>
    obtain ⟨k0, v0⟩ := p
    by_cases h0 : k0 = k
    · subst h0
      simp [aset, alookup, Ne.symm h]
    · simp [aset, alookup, h0, ih]

theorem keys_aset {α β : Type} [DecidableEq α] (k : α) (v : β) (l : List (α × β)) :
    (aset k v l).map Prod.fst =
      if k ∈ l.map Prod.fst then l.map Prod.fst else l.map Prod.fst ++ [k] := by
  induction l with
  | nil => simp [aset]
  | cons p rest ih =>
    obtain ⟨k0, v0⟩ := p
    by_cases h : k0 = k
    · simp [aset, h]
    · simp only [aset, if_neg h, List.map_cons, ih]
      by_cases hm : k ∈ rest.map Prod.fst <;> simp [hm, h, Ne.symm h]

theorem alookup_apush_self {α β : Type} [DecidableEq α] (k : α) (x : β)
    (l : List (α × List β)) :
    alookup k (apush k x l) = some ((alookup k l).getD [] ++ [x]) := by
  induction l with
  | nil => simp [apush, alookup]
  | cons p rest ih =>
    obtain ⟨k0, vs⟩ := p
    by_cases h : k0 = k <;> simp [apush, h, alookup, ih]

theorem alookup_apush_ne {α β : Type} [DecidableEq α] {k k' : α} (x : β)
    (l : List (α × List β)) (h : k' ≠ k) :
    alookup k' (apush k x l) = alookup k' l := by
  induction l with
  | nil => simp [apush, alookup, (Ne.symm h : k ≠ k')]
  | cons p rest ih =>
    obtain ⟨k0, vs⟩ := p
    by_cases h0 : k0 = k
    · subst h0
      simp [apush, alookup, Ne.symm h]
    · simp [apush, alookup, h0, ih]

theorem keys_apush {α β : Type} [DecidableEq α] (k : α) (x : β) (l : List (α × List β)) :
    (apush k x l).map Prod.fst =
      if k ∈ l.map Prod.fst then l.map Prod.fst else l.map Prod.fst ++ [k] := by
  induction l with
  | nil => simp [apush]
  | cons p rest ih =>
    obtain ⟨k0, vs⟩ := p
    by_cases h : k0 = k
    · simp [apush, h]
    · simp only [apush, if_neg h, List.map_cons, ih]
      by_cases hm : k ∈ rest.map Prod.fst <;> simp [hm, h, Ne.symm h]

theorem alookup_aremove_self {α β : Type} [DecidableEq α] (k : α) (l : List (α × β)) :
    alookup k (aremove k l) = none := by
  rw [alookup_eq_none]
  intro hmem
  rcases List.mem_map.mp hmem with ⟨p, hp, hfst⟩
  rcases List.mem_filter.mp hp with ⟨_, hne⟩
  simp [hfst] at hne

theorem aremove_cons_self {α β : Type} [DecidableEq α] (k : α) (v : β) (l : List (α × β)) :
    aremove k ((k, v) :: l) = aremove k l := by
  simp [aremove]

theorem aremove_cons_ne {α β : Type} [DecidableEq α] {k k0 : α} (v : β) (l : List (α × β))
    (h : k0 ≠ k) : aremove k ((k0, v) :: l) = (k0, v) :: aremove k l := by
  simp [aremove, h]

theorem alookup_aremove_ne {α β : Type} [DecidableEq α] {k k' : α} (l : List (α × β))
    (h : k' ≠ k) : alookup k' (aremove k l) = alookup k' l := by
  induction l with
  | nil => rfl
  | cons p rest ih =>
    obtain ⟨k0, v0⟩ := p
    by_cases h0 : k0 = k
    · subst h0
      rw [aremove_cons_self, ih]
      simp [alookup, Ne.symm h]
    · rw [aremove_cons_ne v0 rest h0]
      simp [alookup, ih]

theorem keys_aremove_sublist {α β : Type} [DecidableEq α] (k : α) (l : List (α × β)) :
    List.Sublist ((aremove k l).map Prod.fst) (l.map Prod.fst) :=
  (List.filter_sublist l).map Prod.fst

theorem nodup_keys_aset {α β : Type} [DecidableEq α] (k : α) (v : β) {l : List (α × β)}
    (h : (l.map Prod.fst).Nodup) : ((aset k v l).map Prod.fst).Nodup := by
  rw [keys_aset]
  by_cases hm : k ∈ l.map Prod.fst
  · simpa [hm] using h
  · rw [if_neg hm]
    simp [List.nodup_append, h, hm]

theorem nodup_keys_apush {α β : Type} [DecidableEq α] (k : α) (x : β) {l : List (α × List β)}
    (h : (l.map Prod.fst).Nodup) : ((apush k x l).map Prod.fst).Nodup := by
  rw [keys_apush]
  by_cases hm : k ∈ l.map Prod.fst
  · simpa [hm] using h
  · rw [if_neg hm]
    simp [List.nodup_append, h, hm]

theorem mem_keys_apush {α β : Type} [DecidableEq α] (k t : α) (x : β) (l : List (α × List β)) :
    t ∈ (apush k x l).map Prod.fst ↔ t ∈ l.map Prod.fst ∨ t = k := by
  rw [keys_apush]
  by_cases hm : k ∈ l.map Prod.fst
  · simp only [hm, if_true]
    constructor
    · exact fun h => Or.inl h
    · rintro (h | rfl) <;> assumption
  · simp [hm]

/-! ### Characterization of the add/remove folds -/

/-- Effect of `retain`-then-drop-if-empty on the value stored under one key. -/
def scrubWith {β : Type} [DecidableEq β] (P : β → Bool) : Option (List β) → Option (List β)
  | none => none
  | some vs => if vs.filter P = [] then none else some (vs.filter P)

theorem scrubWith_idem {β : Type} [DecidableEq β] (P : β → Bool) (o : Option (List β)) :
    scrubWith P (scrubWith P o) = scrubWith P o := by
  rcases o with _ | vs
  · rfl
  · by_cases h : vs.filter P = []
    · simp [scrubWith, h]
    · simp [scrubWith, h, List.filter_filter]

theorem alookup_removeFromPostings_self (t : String) (d : ℕ)
    (idx : List (String × List (ℕ × List ℕ))) :
    alookup t (removeFromPostings t d idx) =
      scrubWith (fun e => ! decide (e.1 = d)) (alookup t idx) := by
  rcases ho : alookup t idx with _ | ps
  · simp [removeFromPostings, ho, scrubWith]
  · by_cases h : ps.filter (fun e => ! decide (e.1 = d)) = []
    · simp [removeFromPostings, ho, h, scrubWith, alookup_aremove_self]
    · simp [removeFromPostings, ho, h, scrubWith, alookup_aset_self]

theorem alookup_removeFromPostings_ne {t t' : String} (d : ℕ)
    (idx : List (String × List (ℕ × List ℕ))) (h : t' ≠ t) :
    alookup t' (removeFromPostings t d idx) = alookup t' idx := by
  rcases ho : alookup t idx with _ | ps
  · simp [removeFromPostings, ho]
  · by_cases hf : ps.filter (fun e => ! decide (e.1 = d)) = []
    · simp [removeFromPostings, ho, hf, alookup_aremove_ne _ h]
    · simp [removeFromPostings, ho, hf, alookup_aset_ne _ _ h]

theorem alookup_removeFold (d : ℕ) (l : List (String × ℕ))
    (idx : List (String × List (ℕ × List ℕ))) (t : String) :
    alookup t (l.foldl (fun ix tp => removeFromPostings tp.1 d ix) idx) =
      if t ∈ l.map Prod.fst then scrubWith (fun e => ! decide (e.1 = d)) (alookup t idx)
      else alookup t idx := by
  induction l generalizing idx with
  | nil => simp
  | cons tp rest ih =>
    obtain ⟨t0, p0⟩ := tp
    simp only [List.foldl_cons, List.map_cons, List.mem_cons]
    rw [ih]
    by_cases he : t = t0
    · subst he
      rw [alookup_removeFromPostings_self]
      by_cases hm : t ∈ rest.map Prod.fst <;> simp [hm, scrubWith_idem]
    · rw [alookup_removeFromPostings_ne d idx he]
      by_cases hm : t ∈ rest.map Prod.fst
      · simp [hm]
      · simp [hm, he]

theorem alookup_removeFromTags_self (t : String) (d : ℕ) (tg : List (String × List ℕ)) :
    alookup t (removeFromTags t d tg) = scrubWith (fun i => ! decide (i = d)) (alookup t tg) := by
  rcases ho : alookup t tg with _ | ids
  · simp [removeFromTags, ho, scrubWith]
  · by_cases h : ids.filter (fun i => ! decide (i = d)) = []
    · simp [removeFromTags, ho, h, scrubWith, alookup_aremove_self]
    · simp [removeFromTags, ho, h, scrubWith, alookup_aset_self]

theorem alookup_removeFromTags_ne {t t' : String} (d : ℕ) (tg : List (String × List ℕ))
    (h : t' ≠ t) : alookup t' (removeFromTags t d tg) = alookup t' tg := by
  rcases ho : alookup t tg with _ | ids
  · simp [removeFromTags, ho]
  · by_cases hf : ids.filter (fun i => ! decide (i = d)) = []
    · simp [removeFromTags, ho, hf, alookup_aremove_ne _ h]
    · simp [removeFromTags, ho, hf, alookup_aset_ne _ _ h]

theorem alookup_removeTagsFold (d : ℕ) (l : List String) (tg : List (String × List ℕ))
    (g : String) :
    alookup g (l.foldl (fun a t => removeFromTags t d a) tg) =
      if g ∈ l then scrubWith (fun i => ! decide (i = d)) (alookup g tg)
      else alookup g tg := by
  induction l generalizing tg with
  | nil => simp
  | cons t0 rest ih =>
    simp only [List.foldl_cons, List.mem_cons]
    rw [ih]
    by_cases he : g = t0
    · subst he
      rw [alookup_removeFromTags_self]
      by_cases hm : g ∈ rest <;> simp [hm, scrubWith_idem]
    · rw [alookup_removeFromTags_ne d tg he]
      by_cases hm : g ∈ rest
      · simp [hm]
      · simp [hm, he]

theorem alookup_addFold (d : ℕ) (groups : List (String × List ℕ))
    (idx : List (String × List (ℕ × List ℕ))) (t : String)
    (hnd : (groups.map Prod.fst).Nodup) :
    alookup t (groups.foldl (fun ix g => apush g.1 (d, g.2) ix) idx) =
      match alookup t groups with
      | some ps => some ((alookup t idx).getD [] ++ [(d, ps)])
      | none => alookup t idx := by
  induction groups generalizing idx with
  | nil => simp [alookup]
  | cons g0 rest ih =>
    obtain ⟨t0, ps0⟩ := g0
    simp only [List.map_cons, List.nodup_cons] at hnd
    simp only [List.foldl_cons]
    rw [ih _ hnd.2]
    by_cases he : t0 = t
    · subst he
      have hnone : alookup t0 rest = none := (alookup_eq_none t0 rest).mpr hnd.1
      simp [alookup, hnone, alookup_apush_self]
    · simp [alookup, he, alookup_apush_ne _ _ (Ne.symm he)]

theorem alookup_tagAddFold_not_mem (d : ℕ) (l : List String) (tg : List (String × List ℕ))
    {g : String} (h : g ∉ l) :
    alookup g (l.foldl (fun a t => apush t d a) tg) = alookup g tg := by
  induction l generalizing tg with
  | nil => rfl
  | cons t0 rest ih =>
    simp only [List.mem_cons, not_or] at h
    simp only [List.foldl_cons]
    rw [ih (apush t0 d tg) h.2, alookup_apush_ne _ _ h.1]

theorem tagAddFold_values (d : ℕ) (l : List String) (tg : List (String × List ℕ))
    (g : String) (ids : List ℕ)
    (h : alookup g (l.foldl (fun a t => apush t d a) tg) = some ids) :
    ∀ x ∈ ids, (∃ ids0, alookup g tg = some ids0 ∧ x ∈ ids0) ∨ x = d := by
  induction l generalizing tg with
  | nil =>
    intro x hx
    exact Or.inl ⟨ids, h, hx⟩
  | cons t0 rest ih =>
    simp only [List.foldl_cons] at h
    intro x hx
    rcases ih (apush t0 d tg) h x hx with ⟨ids0, hids0, hmem⟩ | hd
    · by_cases he : t0 = g
      · subst he
        rw [alookup_apush_self] at hids0
        obtain rfl : (alookup t0 tg).getD [] ++ [d] = ids0 := Option.some.inj hids0
        rcases List.mem_append.mp hmem with hmem0 | hmem1
        · rcases ho : alookup t0 tg with _ | ids1
          · simp [ho] at hmem0
          · exact Or.inl ⟨ids1, rfl, by simpa [ho] using hmem0⟩
        · simp at hmem1
          exact Or.inr hmem1
      · rw [alookup_apush_ne _ _ (Ne.symm he)] at hids0
        exact Or.inl ⟨ids0, hids0, hmem⟩
    · exact Or.inr hd

theorem nodup_keys_groupFoldAux (d : ℕ) (groups : List (String × List ℕ))
    (idx : List (String × List (ℕ × List ℕ))) (h : (idx.map Prod.fst).Nodup) :
    (((groups.foldl (fun ix g => apush g.1 (d, g.2) ix) idx)).map Prod.fst).Nodup := by
  induction groups generalizing idx with
  | nil => exact h
  | cons g0 rest ih => exact ih _ (nodup_keys_apush _ _ h)

theorem mem_keys_foldl_apush {β : Type} (l : List (String × β))
    (acc : List (String × List β)) (t : String) :
    t ∈ ((l.foldl (fun a tp => apush tp.1 tp.2 a)) acc).map Prod.fst ↔
      t ∈ acc.map Prod.fst ∨ t ∈ l.map Prod.fst := by
  induction l generalizing acc with
  | nil => simp
  | cons tp rest ih =>
    simp only [List.foldl_cons, List.map_cons, List.mem_cons]
    rw [ih]
    rw [mem_keys_apush]
    tauto

theorem mem_keys_groupPositions (l : List (String × ℕ)) (t : String) :
    t ∈ (groupPositions l).map Prod.fst ↔ t ∈ l.map Prod.fst := by
  unfold groupPositions
  rw [mem_keys_foldl_apush]
  simp

theorem nodup_keys_groupPositions (l : List (String × ℕ)) :
    ((groupPositions l).map Prod.fst).Nodup := by
  unfold groupPositions
  have : ∀ acc : List (String × List ℕ), (acc.map Prod.fst).Nodup →
      ((l.foldl (fun a tp => apush tp.1 tp.2 a) acc).map Prod.fst).Nodup := by
    induction l with
    | nil => exact fun acc h => h
    | cons tp rest ih =>
      intro acc h
      exact ih _ (nodup_keys_apush _ _ h)
  exact this [] (by simp)

/-! ### Concrete fixtures used by witnesses and counterexamples -/

/-- Concrete tokenizer instance for witnesses: whitespace words in order with
their ordinal positions (a stand-in for the external stemming tokenizer). -/
def tokW : Tok := fun s =>
  ((wordsOf (strToLower s)).enum).map (fun p => (p.2, p.1))

/-- Identity highlighter instance for witnesses (the real one only wraps
matches in ANSI colour codes). -/
def hlW : List String → String → String := fun _ s => s

/-- Constant idf instance for witnesses (the ranking theorem quantifies over
the idf function). -/
def idfW : ℕ → ℕ → ℚ := fun _ _ => 1

def docW1 : Document := ⟨1, "a.txt", "apple banana", "a", ["fruit"], 2, 0⟩

def docW2 : Document := ⟨2, "b.txt", "apple apple cherry", "b", ["fruit", "red"], 3, 0⟩

/-- Two-document concrete index. -/
def ixW : InvertedIndex ℚ :=
  ((InvertedIndex.new ℚ).add_document tokW docW1).add_document tokW docW2

/-! ### C1: persistence round trip -/

/-- C1: for every index state (with the always-true proviso that the stored
cache capacity is non-zero, which `new` and every load guarantee),
`from_serialized_data (to_serialized_data ix)` succeeds and reproduces the
document store, postings index, tag index, total document count, average
document length and cache capacity; the rebuilt id counter is
`max(document ids) + 1` (`foldr max 0` is `0` on an empty store, giving `1`)
and the rebuilt cache is empty. -/
theorem c1_persistence_round_trip (K : Type) [LinearOrderedField K]
    (ix : InvertedIndex K) (hcap : ix.cache_capacity ≠ 0) :
    ∃ ix' : InvertedIndex K,
      InvertedIndex.from_serialized_data ix.to_serialized_data = some ix' ∧
      ix'.documents = ix.documents ∧ ix'.index = ix.index ∧ ix'.tags = ix.tags ∧
      ix'.total_docs = ix.total_docs ∧ ix'.avg_doc_length = ix.avg_doc_length ∧
      ix'.cache_capacity = ix.cache_capacity ∧
      ix'.next_doc_id = (ix.documents.map Prod.fst).foldr max 0 + 1 ∧
      ix'.search_cache = [] := by
  refine ⟨⟨ix.index, ix.documents, ix.tags, (ix.documents.map Prod.fst).foldr max 0 + 1,
    ix.total_docs, ix.avg_doc_length, [], ix.cache_capacity⟩,
    ?_, rfl, rfl, rfl, rfl, rfl, rfl, rfl, rfl⟩
  simp [InvertedIndex.from_serialized_data, InvertedIndex.to_serialized_data, hcap]

/-- Witness for C1 at a concrete two-document index. -/
theorem c1_persistence_round_trip_witness :
    ixW.cache_capacity ≠ 0 ∧
    (∃ ix' : InvertedIndex ℚ,
      InvertedIndex.from_serialized_data ixW.to_serialized_data = some ix' ∧
      ix'.documents = ixW.documents ∧ ix'.index = ixW.index ∧ ix'.tags = ixW.tags ∧
      ix'.total_docs = ixW.total_docs ∧ ix'.avg_doc_length = ixW.avg_doc_length ∧
      ix'.cache_capacity = ixW.cache_capacity ∧
      ix'.next_doc_id = (ixW.documents.map Prod.fst).foldr max 0 + 1 ∧
      ix'.search_cache = []) :=
  ⟨by decide, c1_persistence_round_trip ℚ ixW (by decide)⟩

/-! ### C3: aggregate maintenance -/

/-- C3 counterexample: a direct `add_document` leaves both aggregates stale,
contradicting the claim that they are recomputed after *every* corpus
mutation.  After adding the first (2-token) document to a fresh index the
store holds 1 document, yet `total_docs` is still `0` and `avg_doc_length`
is still `0` rather than `2 / 1`. -/
theorem c3_aggregates_stale_counterexample :
    ((InvertedIndex.new ℚ).add_document tokW docW1).total_docs ≠
      ((InvertedIndex.new ℚ).add_document tokW docW1).documents.length ∧
    ((InvertedIndex.new ℚ).add_document tokW docW1).avg_doc_length ≠
      ((((InvertedIndex.new ℚ).add_document tokW docW1).documents.map
          (fun p => p.2.num_tokens)).sum : ℚ) /
        (((InvertedIndex.new ℚ).add_document tokW docW1).documents.length : ℚ) := by
  constructor
  · decide
  · have h1 : ((InvertedIndex.new ℚ).add_document tokW docW1).avg_doc_length = 0 := rfl
    have h2 : ((InvertedIndex.new ℚ).add_document tokW docW1).documents = [(1, docW1)] := rfl
    rw [h1, h2]
    norm_num [docW1]

/-- C3 amended: the aggregates are recomputed (total = store size, average =
total token count / store size, `0` on an empty store) by every directory
synchronization, while a direct `add_document` or `remove_document` leaves
them unchanged (stale). -/
theorem c3_aggregates_recomputed_by_sync (K : Type) [LinearOrderedField K] (tok : Tok)
    (rem : List ℕ) (adds : List Document) (ix : InvertedIndex K) (d : Document) (i : ℕ) :
    ((ix.apply_directory_sync tok rem adds).total_docs =
       (ix.apply_directory_sync tok rem adds).documents.length) ∧
    ((ix.apply_directory_sync tok rem adds).avg_doc_length =
       (if 0 < (ix.apply_directory_sync tok rem adds).documents.length then
         ((((ix.apply_directory_sync tok rem adds).documents.map
             (fun p => p.2.num_tokens)).sum : ℕ) : K) /
           (((ix.apply_directory_sync tok rem adds).documents.length : ℕ) : K)
        else 0)) ∧
    (ix.add_document tok d).total_docs = ix.total_docs ∧
    (ix.add_document tok d).avg_doc_length = ix.avg_doc_length ∧
    (ix.remove_document tok i).total_docs = ix.total_docs ∧
    (ix.remove_document tok i).avg_doc_length = ix.avg_doc_length := by
  refine ⟨rfl, ?_, rfl, rfl, ?_, ?_⟩
  · unfold InvertedIndex.apply_directory_sync
    rfl
  all_goals
    unfold InvertedIndex.remove_document
    rcases alookup i ix.documents with _ | doc <;> rfl

/-! ### C9: query-time degradation -/

/-- C9: `search` never produces an error for any query string (its Rust
signature returns a plain `Vec`, and its early paths return empty lists):
an empty raw query, a tag query whose remainder after `#` trims to the
empty string, and a keyword query whose word processing yields zero terms
each return the empty result list and leave the index untouched.  The
`alookup … = none` conjuncts say the query has no (stale) cache entry, which
holds in every reachable state because these early paths never populate the
cache. -/
theorem c9_search_degrades_gracefully (K : Type) [LinearOrderedField K] (tok : Tok)
    (hl : List String → String → String) (idfF : ℕ → ℕ → K)
    (ix : InvertedIndex K) (q : String)
    (h : q = "" ∨
      (alookup q ix.search_cache = none ∧ strStartsWith q "#" = true ∧
        strToLower (strTrim (strDrop q 1)) = "") ∨
      (alookup q ix.search_cache = none ∧ strStartsWith q "#" = false ∧
        (strStartsWith q "\"" && strEndsWith q "\"" && decide (1 < q.utf8ByteSize)) = false ∧
        processWords ix tok (wordsOf q).length (wordsOf (strToLower q)) [] = some [])) :
    InvertedIndex.search tok hl idfF ix q = some ([], ix) := by
  rcases h with rfl | ⟨hm, hs, ht⟩ | ⟨hm, hs, hp, hw⟩
  · simp [InvertedIndex.search]
  · have hq : q ≠ "" := by
      intro h0
      rw [h0] at hs
      exact absurd hs (by decide)
    unfold InvertedIndex.search cacheGet
    rw [if_neg hq, hm]
    unfold computeResults
    simp [hs, ht]
  · by_cases hq : q = ""
    · subst hq
      simp [InvertedIndex.search]
    · unfold InvertedIndex.search cacheGet
      rw [if_neg hq, hm]
      unfold computeResults
      simp [hs, hp, hw]

/-- Witness for C9: the tag query `"# "` on the concrete index returns no
results (and no error). -/
theorem c9_search_degrades_gracefully_witness :
    InvertedIndex.search tokW hlW idfW ixW "# " = some ([], ixW) :=
  c9_search_degrades_gracefully ℚ tokW hlW idfW ixW "# "
    (Or.inr (Or.inl ⟨by decide, by decide, by decide⟩))

/-! ### C10: the snippet fallback panics on multi-byte content -/

/-- Content whose 150th byte falls inside the two-byte UTF-8 encoding of `é`
(149 ASCII bytes, then `é`, then enough tail to exceed 150 bytes). -/
def contentX : String := String.mk (List.replicate 149 'a' ++ ['é', 'b', 'b'])

def docX : Document := ⟨1, "x.txt", contentX, "x", [], 1, 0⟩

/-- Tokenizer instance for the panic scenario: it stems the query word
"happy" (and the content) to the token "happi" — as the real Snowball
stemmer does — so the stemmed highlight term occurs nowhere in the raw
content and the snippet generator takes its fallback path. -/
def tokX : Tok := fun s =>
  if s = contentX then [("happi", 0)]
  else if s = "happy" then [("happi", 0)] else []

def ixX : InvertedIndex ℚ := (InvertedIndex.new ℚ).add_document tokX docX

/-- C10 is a code bug: the fallback snippet path slices the first
`min(len, 150)` *bytes* of the content (`&doc.content[..150]`), which panics
when byte 150 is not a character boundary — the spec intends the first 150
characters.  On the index holding `docX` the keyword query "happy" (resolved
to the indexed token "happi", which is not a substring of the content) drives
`search` into that slice and panics (`none` in the model); the first conjunct
isolates the offending slice itself. -/
theorem c10_snippet_fallback_panics :
    rustByteTake contentX (min contentX.utf8ByteSize 150) = none ∧
    InvertedIndex.search tokX hlW idfW ixX "happy" = none := by
  constructor
  · decide
  · rfl

/-! ### Sort lemmas -/

theorem perm_insertLe {A : Type} (le : A → A → Bool) (x : A) (l : List A) :
    (insertLe le x l).Perm (x :: l) := by
  induction l with
  | nil => exact List.Perm.refl _
  | cons y ys ih =>
    by_cases h : le x y = true
    · simp [insertLe, h]
    · simp only [insertLe, if_neg h]
      exact (ih.cons y).trans (List.Perm.swap x y ys)

theorem perm_sortBy {A : Type} (le : A → A → Bool) (l : List A) :
    (sortBy le l).Perm l := by
  induction l with
  | nil => exact List.Perm.refl _
  | cons x xs ih => exact (perm_insertLe le x _).trans (ih.cons x)

theorem pairwise_insertLe {A : Type} (le : A → A → Bool)
    (htot : ∀ a b, (le a b || le b a) = true)
    (htrans : ∀ a b c, le a b = true → le b c = true → le a c = true)
    (x : A) (l : List A) (h : l.Pairwise (fun a b => le a b = true)) :
    (insertLe le x l).Pairwise (fun a b => le a b = true) := by
  induction l with
  | nil => simp [insertLe]
  | cons y ys ih =>
    rcases List.pairwise_cons.mp h with ⟨hy, hys⟩
    by_cases hxy : le x y = true
    · simp only [insertLe, if_pos hxy]
      refine List.pairwise_cons.mpr ⟨?_, h⟩
      intro z hz
      rcases List.mem_cons.mp hz with rfl | hz
      · exact hxy
      · exact htrans x y z hxy (hy z hz)
    · simp only [insertLe, if_neg hxy]
      refine List.pairwise_cons.mpr ⟨?_, ih hys⟩
      intro z hz
      have hz' := (perm_insertLe le x ys).mem_iff.mp hz
      rcases List.mem_cons.mp hz' with heq | hz'
      · rw [heq]
        have h3 := htot x y
        rw [Bool.or_eq_true] at h3
        rcases h3 with h3 | h3
        · exact absurd h3 hxy
        · exact h3
      · exact hy z hz'

theorem pairwise_sortBy {A : Type} (le : A → A → Bool)
    (htot : ∀ a b, (le a b || le b a) = true)
    (htrans : ∀ a b c, le a b = true → le b c = true → le a c = true)
    (l : List A) : (sortBy le l).Pairwise (fun a b => le a b = true) := by
  induction l with
  | nil => simp [sortBy]
  | cons x xs ih => exact pairwise_insertLe le htot htrans x _ ih

/-! ### C6: cache coherence -/

/-- Helper: a cache hit returns the cached list and only promotes the entry. -/
theorem search_cache_hit (tok : Tok) (hl : List String → String → String)
    (idfF : ℕ → ℕ → K) (ix : InvertedIndex K) (q : String) (rs : List (SearchResult K))
    (hq : q ≠ "") (h : alookup q ix.search_cache = some rs) :
    InvertedIndex.search tok hl idfF ix q =
      some (rs, { ix with search_cache :=
        (q, rs) :: ix.search_cache.filter (fun p => ! decide (p.1 = q)) }) := by
  unfold InvertedIndex.search cacheGet
  rw [if_neg hq, h]

/-- C6 counterexample: the claim fails as stated, because the early-return
paths of `search` bypass the cache entirely.  For the tag query `"#"`
(empty tag name) on a fresh index the first call returns the state
unchanged with its empty cache, so the second identical call cannot be a
cache hit. -/
theorem c6_cache_claim_counterexample :
    InvertedIndex.search tokW hlW idfW (InvertedIndex.new ℚ) "#" =
      some ([], InvertedIndex.new ℚ) ∧
    (InvertedIndex.new ℚ).search_cache = [] ∧
    cacheGet "#" (InvertedIndex.new ℚ).search_cache =
      (none : Option (List (SearchResult ℚ) × List (String × List (SearchResult ℚ)))) :=
  ⟨rfl, rfl, rfl⟩

/-- C6 amended: for every query that reaches the result-computation path
(non-empty, not cached, not one of the uncached early returns), the computed
list is cached, the second identical call is a cache hit returning the same
list, and every `add_document`, every `remove_document` of a present id, and
every directory synchronization clears the entire cache. -/
theorem c6_cache_coherence_amended (K : Type) [LinearOrderedField K] (tok : Tok)
    (hl : List String → String → String) (idfF : ℕ → ℕ → K)
    (ix : InvertedIndex K) (q : String)
    (hcap : ix.cache_capacity ≠ 0)
    (hmiss : alookup q ix.search_cache = none)
    (hq : q ≠ "") :
    (∀ rs, computeResults tok hl idfF ix q = some (some rs) →
      ∃ ix1, InvertedIndex.search tok hl idfF ix q = some (rs, ix1) ∧
        alookup q ix1.search_cache = some rs ∧
        ∃ ix2, InvertedIndex.search tok hl idfF ix1 q = some (rs, ix2)) ∧
    (∀ d, (ix.add_document tok d).search_cache = []) ∧
    (∀ i doc, alookup i ix.documents = some doc →
      (ix.remove_document tok i).search_cache = []) ∧
    (∀ rem adds, (ix.apply_directory_sync tok rem adds).search_cache = []) := by
  obtain ⟨n, hn⟩ := Nat.exists_eq_succ_of_ne_zero hcap
  refine ⟨?_, fun d => rfl, ?_, fun rem adds => rfl⟩
  · intro rs hcomp
    have hget : cacheGet q ix.search_cache =
        (none : Option (List (SearchResult K) × List (String × List (SearchResult K)))) := by
      unfold cacheGet
      rw [hmiss]
    have h1 : InvertedIndex.search tok hl idfF ix q =
        some (rs, { ix with
          search_cache := (cachePut ix.cache_capacity q rs ix.search_cache) }) := by
      unfold InvertedIndex.search
      rw [if_neg hq, hget, hcomp]
    have hcache : alookup q (cachePut ix.cache_capacity q rs ix.search_cache) = some rs := by
      unfold cachePut
      rw [hn, List.take_succ_cons]
      simp [alookup]
    exact ⟨_, h1, hcache, _, search_cache_hit tok hl idfF _ q rs hq hcache⟩
  · intro i doc hdoc
    unfold InvertedIndex.remove_document
    rw [hdoc]

/-- Witness for C6 (amended) at the concrete index and the query "apple". -/
theorem c6_cache_coherence_amended_witness :
    ixW.cache_capacity ≠ 0 ∧ alookup "apple" ixW.search_cache = none ∧ "apple" ≠ "" ∧
    ((∀ rs, computeResults tokW hlW idfW ixW "apple" = some (some rs) →
      ∃ ix1, InvertedIndex.search tokW hlW idfW ixW "apple" = some (rs, ix1) ∧
        alookup "apple" ix1.search_cache = some rs ∧
        ∃ ix2, InvertedIndex.search tokW hlW idfW ix1 "apple" = some (rs, ix2)) ∧
    (∀ d, (ixW.add_document tokW d).search_cache = []) ∧
    (∀ i doc, alookup i ixW.documents = some doc →
      (ixW.remove_document tokW i).search_cache = []) ∧
    (∀ rem adds, (ixW.apply_directory_sync tokW rem adds).search_cache = [])) :=
  ⟨by decide, by decide, by decide,
    c6_cache_coherence_amended ℚ tokW hlW idfW ixW "apple" (by decide) (by decide) (by decide)⟩


/-! ### C5: fuzzy fallback -/

/-- C5: for a non-wildcard query token with no exact postings entry, the
resolved term — the head of `find_fuzzy_matches` — is an indexed token whose
Levenshtein distance to the query token is at most 2 and minimal among all
indexed tokens; when no indexed token is within distance 2 the list is empty
(the term is unresolved), and an unresolved term in a single-term query makes
the keyword search return the empty result list. -/
theorem c5_fuzzy_resolution (K : Type) [LinearOrderedField K]
    (ix : InvertedIndex K) (t : String) :
    (∀ m dist, (ix.find_fuzzy_matches t).head? = some (m, dist) →
      (alookup m ix.index).isSome = true ∧ levStr t m = dist ∧ dist ≤ 2 ∧
      ∀ u ∈ ix.index.map Prod.fst, dist ≤ levStr t u) ∧
    ((ix.find_fuzzy_matches t).head? = none →
      ∀ u ∈ ix.index.map Prod.fst, 2 < levStr t u) ∧
    (∀ (hl : List String → String → String) (idfF : ℕ → ℕ → K),
      alookup t ix.index = none → ix.find_fuzzy_matches t = [] →
      InvertedIndex.perform_keyword_search_and_rank hl idfF ix [(t, false)] = some []) := by
  set f : String × List (ℕ × List ℕ) → Option (String × ℕ) := fun p =>
    if levStr t p.1 ≤ 2 then some (p.1, levStr t p.1) else none with hf
  have hcand : ix.find_fuzzy_matches t =
      sortBy (fun a b => decide (a.2 ≤ b.2)) (ix.index.filterMap f) := rfl
  have hmemc : ∀ u ∈ ix.index.map Prod.fst, levStr t u ≤ 2 →
      (u, levStr t u) ∈ ix.index.filterMap f := by
    intro u hu h2
    rcases List.mem_map.mp hu with ⟨p, hp, rfl⟩
    exact List.mem_filterMap.mpr ⟨p, hp, by simp [hf, h2]⟩
  refine ⟨?_, ?_, ?_⟩
  · intro m dist hhead
    rcases hs : ix.find_fuzzy_matches t with _ | ⟨hd, tl⟩
    · rw [hs] at hhead
      exact absurd hhead (by simp)
    · rw [hs] at hhead
      simp only [List.head?_cons, Option.some.injEq] at hhead
      subst hhead
      have hmem : (m, dist) ∈ ix.index.filterMap f :=
        ((perm_sortBy _ _).mem_iff).mp (by rw [← hcand, hs]; exact List.mem_cons_self _ _)
      rcases List.mem_filterMap.mp hmem with ⟨p, hp, hfp⟩
      have h2 : levStr t p.1 ≤ 2 := by
        by_contra h2
        simp [hf, h2] at hfp
      have hm : p.1 = m ∧ levStr t p.1 = dist := by
        rw [hf] at hfp
        simp only [if_pos h2, Option.some.injEq, Prod.mk.injEq] at hfp
        exact hfp
      obtain ⟨rfl, hdist⟩ : p.1 = m ∧ levStr t m = dist := ⟨hm.1, hm.1 ▸ hm.2⟩
      refine ⟨(alookup_isSome _ _).mpr (List.mem_map.mpr ⟨p, hp, rfl⟩), hdist, hdist ▸ h2, ?_⟩
      intro u hu
      by_cases hu2 : levStr t u ≤ 2
      · have humem : (u, levStr t u) ∈ sortBy (fun a b => decide (a.2 ≤ b.2))
            (ix.index.filterMap f) :=
          ((perm_sortBy _ _).mem_iff).mpr (hmemc u hu hu2)
        rw [← hcand, hs] at humem
        rcases List.mem_cons.mp humem with heq | htl
        · have h4 : levStr t u = dist := by simpa using congrArg Prod.snd heq
          exact le_of_eq h4.symm
        · have hpw := pairwise_sortBy (fun a b : String × ℕ => decide (a.2 ≤ b.2))
            (fun a b => by simp [Nat.le_total]) (fun a b c h1 h2 => by
              simp only [decide_eq_true_eq] at h1 h2 ⊢
              exact le_trans h1 h2) (ix.index.filterMap f)
          rw [← hcand, hs] at hpw
          have := (List.pairwise_cons.mp hpw).1 _ htl
          simpa using this
      · have : 2 < levStr t u := Nat.lt_of_not_le hu2
        exact le_trans (hdist ▸ h2) (le_of_lt this)
  · intro hnone u hu
    rcases hs : ix.find_fuzzy_matches t with _ | ⟨hd, tl⟩
    · by_contra h2
      have h2' : levStr t u ≤ 2 := Nat.le_of_not_lt h2
      have humem : (u, levStr t u) ∈ sortBy (fun a b => decide (a.2 ≤ b.2))
          (ix.index.filterMap f) := ((perm_sortBy _ _).mem_iff).mpr (hmemc u hu h2')
      rw [← hcand, hs] at humem
      exact absurd humem (List.not_mem_nil _)
    · rw [hs] at hnone
      exact absurd hnone (by simp)
  · intro hl idfF hlook hfz
    have hb : buildCandidates ix ([(t, false)] : List (String × Bool)).length
        [(t, false)] [] [] = none := by
      simp [buildCandidates, hlook, hfz]
    unfold InvertedIndex.perform_keyword_search_and_rank
    rw [hb]

/-- Witness for C5 at the concrete index and the misspelled token "aple"
(distance 1 to the indexed "apple"). -/
theorem c5_fuzzy_resolution_witness :
    (ixW.find_fuzzy_matches "aple").head? = some ("apple", 1) ∧
    ((alookup "apple" ixW.index).isSome = true ∧ levStr "aple" "apple" = 1 ∧ (1 : ℕ) ≤ 2 ∧
      ∀ u ∈ ixW.index.map Prod.fst, 1 ≤ levStr "aple" u) :=
  ⟨by decide, (c5_fuzzy_resolution ℚ ixW "aple").1 "apple" 1 (by decide)⟩


/-! ### C7: add then remove leaves no trace -/

theorem scrubWith_mem {b : Type} [DecidableEq b] (P : b → Bool) (o : Option (List b))
    (vs : List b) (h : scrubWith P o = some vs) : ∀ v ∈ vs, P v = true := by
  rcases o with _ | vs0
  · simp [scrubWith] at h
  · by_cases hf : vs0.filter P = []
    · simp [scrubWith, hf] at h
    · simp only [scrubWith, if_neg hf, Option.some.injEq] at h
      subst h
      exact fun v hv => (List.mem_filter.mp hv).2

/-- C7: adding a document with a fresh id (no stored document, no postings
entry and no tag entry mention `d.id` beforehand — the engine's monotone id
assignment guarantees this) and then removing that id leaves no postings or
tag entry referencing the id, drops every token and tag introduced solely by
the document, and removes the stored document. -/
theorem c7_add_then_remove_clean (K : Type) [LinearOrderedField K] (tok : Tok)
    (ix : InvertedIndex K) (d : Document) (ix' : InvertedIndex K)
    (hdoc : alookup d.id ix.documents = none)
    (hpost : ∀ p ∈ ix.index, ∀ e ∈ p.2, e.1 ≠ d.id)
    (htag : ∀ p ∈ ix.tags, d.id ∉ p.2)
    (hix' : ix' = (ix.add_document tok d).remove_document tok d.id) :
    (∀ t ps, alookup t ix'.index = some ps → ∀ e ∈ ps, e.1 ≠ d.id) ∧
    (∀ g ids, alookup g ix'.tags = some ids → d.id ∉ ids) ∧
    (∀ t, alookup t ix.index = none → alookup t ix'.index = none) ∧
    (∀ g, alookup g ix.tags = none → alookup g ix'.tags = none) ∧
    alookup d.id ix'.documents = none := by
  subst hix'
  have hA : alookup d.id (ix.add_document tok d).documents = some d :=
    alookup_aset_self _ _ _
  have hrm : (ix.add_document tok d).remove_document tok d.id =
      { ix.add_document tok d with
        documents := aremove d.id (ix.add_document tok d).documents
        index := (tok d.content).foldl (fun idx tp => removeFromPostings tp.1 d.id idx)
          (ix.add_document tok d).index
        tags := d.tags.foldl (fun tg t => removeFromTags t d.id tg)
          (ix.add_document tok d).tags
        search_cache := [] } := by
    unfold InvertedIndex.remove_document
    rw [hA]
  rw [hrm]
  have hAidx : ∀ t, alookup t (ix.add_document tok d).index =
      match alookup t (groupPositions (tok d.content)) with
      | some ps => some ((alookup t ix.index).getD [] ++ [(d.id, ps)])
      | none => alookup t ix.index := by
    intro t
    exact alookup_addFold d.id _ _ t (nodup_keys_groupPositions _)
  refine ⟨?_, ?_, ?_, ?_, alookup_aremove_self _ _⟩
  · intro t ps hlps e he
    rw [show ({ ix.add_document tok d with
        documents := aremove d.id (ix.add_document tok d).documents
        index := (tok d.content).foldl (fun idx tp => removeFromPostings tp.1 d.id idx)
          (ix.add_document tok d).index
        tags := d.tags.foldl (fun tg t => removeFromTags t d.id tg)
          (ix.add_document tok d).tags
        search_cache := [] } : InvertedIndex K).index =
      (tok d.content).foldl (fun idx tp => removeFromPostings tp.1 d.id idx)
        (ix.add_document tok d).index from rfl, alookup_removeFold] at hlps
    by_cases hm : t ∈ (tok d.content).map Prod.fst
    · rw [if_pos hm] at hlps
      have := scrubWith_mem _ _ _ hlps e he
      simpa using this
    · rw [if_neg hm] at hlps
      rw [hAidx t] at hlps
      rcases hg : alookup t (groupPositions (tok d.content)) with _ | ps0
      · rw [hg] at hlps
        exact hpost _ (mem_of_alookup hlps) e he
      · exact absurd ((mem_keys_groupPositions _ t).mp
          ((alookup_isSome t _).mp (by rw [hg]; rfl))) hm
  · intro g ids hlids
    rw [show ({ ix.add_document tok d with
        documents := aremove d.id (ix.add_document tok d).documents
        index := (tok d.content).foldl (fun idx tp => removeFromPostings tp.1 d.id idx)
          (ix.add_document tok d).index
        tags := d.tags.foldl (fun tg t => removeFromTags t d.id tg)
          (ix.add_document tok d).tags
        search_cache := [] } : InvertedIndex K).tags =
      d.tags.foldl (fun tg t => removeFromTags t d.id tg)
        (ix.add_document tok d).tags from rfl, alookup_removeTagsFold] at hlids
    by_cases hm : g ∈ d.tags
    · rw [if_pos hm] at hlids
      intro hmem
      have := scrubWith_mem _ _ _ hlids d.id hmem
      simp at this
    · rw [if_neg hm] at hlids
      rw [show (ix.add_document tok d).tags =
        d.tags.foldl (fun tg t => apush t d.id tg) ix.tags from rfl] at hlids
      rw [alookup_tagAddFold_not_mem d.id d.tags ix.tags hm] at hlids
      exact htag _ (mem_of_alookup hlids)
  · intro t hnone
    rw [show ({ ix.add_document tok d with
        documents := aremove d.id (ix.add_document tok d).documents
        index := (tok d.content).foldl (fun idx tp => removeFromPostings tp.1 d.id idx)
          (ix.add_document tok d).index
        tags := d.tags.foldl (fun tg t => removeFromTags t d.id tg)
          (ix.add_document tok d).tags
        search_cache := [] } : InvertedIndex K).index =
      (tok d.content).foldl (fun idx tp => removeFromPostings tp.1 d.id idx)
        (ix.add_document tok d).index from rfl, alookup_removeFold]
    by_cases hm : t ∈ (tok d.content).map Prod.fst
    · rw [if_pos hm, hAidx t]
      have hk : t ∈ (groupPositions (tok d.content)).map Prod.fst :=
        (mem_keys_groupPositions _ t).mpr hm
      rcases Option.isSome_iff_exists.mp ((alookup_isSome t _).mpr hk) with ⟨ps0, hps0⟩
      rw [hps0, hnone]
      simp [scrubWith]
    · rw [if_neg hm, hAidx t]
      rcases hg : alookup t (groupPositions (tok d.content)) with _ | ps0
      · exact hnone
      · exact absurd ((mem_keys_groupPositions _ t).mp
          ((alookup_isSome t _).mp (by rw [hg]; rfl))) hm
  · intro g hnone
    rw [show ({ ix.add_document tok d with
        documents := aremove d.id (ix.add_document tok d).documents
        index := (tok d.content).foldl (fun idx tp => removeFromPostings tp.1 d.id idx)
          (ix.add_document tok d).index
        tags := d.tags.foldl (fun tg t => removeFromTags t d.id tg)
          (ix.add_document tok d).tags
        search_cache := [] } : InvertedIndex K).tags =
      d.tags.foldl (fun tg t => removeFromTags t d.id tg)
        (ix.add_document tok d).tags from rfl, alookup_removeTagsFold]
    by_cases hm : g ∈ d.tags
    · rw [if_pos hm]
      rcases hT : alookup g (ix.add_document tok d).tags with _ | ids
      · simp [scrubWith]
      · have hall : ∀ x ∈ ids, x = d.id := by
          intro x hx
          have := tagAddFold_values d.id d.tags ix.tags g ids hT x hx
          rcases this with ⟨ids0, hids0, _⟩ | hxd
          · rw [hnone] at hids0
            exact absurd hids0 (by simp)
          · exact hxd
        have hfe : ids.filter (fun i => ! decide (i = d.id)) = [] := by
          rw [List.filter_eq_nil_iff]
          intro x hx
          simp [hall x hx]
        simp [scrubWith, hfe]
    · rw [if_neg hm]
      rw [show (ix.add_document tok d).tags =
        d.tags.foldl (fun tg t => apush t d.id tg) ix.tags from rfl]
      rw [alookup_tagAddFold_not_mem d.id d.tags ix.tags hm]
      exact hnone

/-- Witness for C7: adding a fresh third document to the concrete index and
removing it leaves the postings, tags and store clean of its id. -/
theorem c7_add_then_remove_clean_witness :
    (alookup 3 ixW.documents = none) ∧
    ((∀ t ps, alookup t
        (((ixW.add_document tokW ⟨3, "c.txt", "durian apple", "c", ["exotic"], 2, 0⟩
          ).remove_document tokW 3)).index = some ps → ∀ e ∈ ps, e.1 ≠ 3) ∧
     (∀ g ids, alookup g
        (((ixW.add_document tokW ⟨3, "c.txt", "durian apple", "c", ["exotic"], 2, 0⟩
          ).remove_document tokW 3)).tags = some ids → 3 ∉ ids) ∧
     (∀ t, alookup t ixW.index = none → alookup t
        (((ixW.add_document tokW ⟨3, "c.txt", "durian apple", "c", ["exotic"], 2, 0⟩
          ).remove_document tokW 3)).index = none) ∧
     (∀ g, alookup g ixW.tags = none → alookup g
        (((ixW.add_document tokW ⟨3, "c.txt", "durian apple", "c", ["exotic"], 2, 0⟩
          ).remove_document tokW 3)).tags = none) ∧
     alookup 3 (((ixW.add_document tokW ⟨3, "c.txt", "durian apple", "c", ["exotic"], 2, 0⟩
       ).remove_document tokW 3)).documents = none) :=
  ⟨by decide, c7_add_then_remove_clean ℚ tokW ixW
    ⟨3, "c.txt", "durian apple", "c", ["exotic"], 2, 0⟩ _
    (by decide) (by decide) (by decide) rfl⟩


/-! ### C8: postings uniqueness invariant -/

theorem alookup_of_mem {a b : Type} [DecidableEq a] {l : List (a × b)}
    (hk : (l.map Prod.fst).Nodup) {p : a × b} (hp : p ∈ l) : alookup p.1 l = some p.2 := by
  induction l with
  | nil => cases hp
  | cons q rest ih =>
    rcases List.mem_cons.mp hp with rfl | hp'
    · simp [alookup]
    · simp only [List.map_cons, List.nodup_cons] at hk
      have hne : q.1 ≠ p.1 := by
        intro heq
        exact hk.1 (heq ▸ List.mem_map.mpr ⟨p, hp', rfl⟩)
      simp [alookup, hne, ih hk.2 hp']

/-- Coherence invariant carried through the reachability induction: index
keys are unique, postings ids are unique per token, and every postings entry
points at a stored document whose tokenization contains the token. -/
def Coherent (tok : Tok) (ix : InvertedIndex K) : Prop :=
  (ix.index.map Prod.fst).Nodup ∧
  ∀ t ps, alookup t ix.index = some ps →
    (ps.map Prod.fst).Nodup ∧
    ∀ e ∈ ps, ∃ doc, alookup e.1 ix.documents = some doc ∧
      t ∈ (tok doc.content).map Prod.fst

/-- Sequential freshness of a batch of added documents (each id absent from
the store at its time of addition, as the atomic id counter ensures). -/
def AddsFresh (tok : Tok) : List Document → InvertedIndex K → Prop
  | [], _ => True
  | d :: ds, ix => alookup d.id ix.documents = none ∧
      AddsFresh tok ds (ix.add_document tok d)

/-- States reachable by the public operations — `add_document` (with an id
absent from the store, as the engine's monotone id assignment guarantees),
`remove_document`, directory synchronization, and a persistence round trip. -/
inductive Reachable (K : Type) [LinearOrderedField K] (tok : Tok) : InvertedIndex K → Prop
  | new : Reachable K tok (InvertedIndex.new K)
  | add (ix : InvertedIndex K) (d : Document) : Reachable K tok ix →
      alookup d.id ix.documents = none → Reachable K tok (ix.add_document tok d)
  | remove (ix : InvertedIndex K) (i : ℕ) : Reachable K tok ix →
      Reachable K tok (ix.remove_document tok i)
  | sync (ix : InvertedIndex K) (rem : List ℕ) (adds : List Document) :
      Reachable K tok ix →
      AddsFresh tok adds (rem.foldl (fun j i => j.remove_document tok i) ix) →
      Reachable K tok (ix.apply_directory_sync tok rem adds)
  | roundtrip (ix ix2 : InvertedIndex K) : Reachable K tok ix →
      InvertedIndex.from_serialized_data ix.to_serialized_data = some ix2 →
      Reachable K tok ix2

theorem coherent_new (tok : Tok) : Coherent tok (InvertedIndex.new K) := by
  constructor
  · simp [InvertedIndex.new]
  · intro t ps h
    simp [InvertedIndex.new, alookup] at h

theorem coherent_add (tok : Tok) (ix : InvertedIndex K) (d : Document)
    (h : Coherent tok ix) (hd : alookup d.id ix.documents = none) :
    Coherent tok (ix.add_document tok d) := by
  obtain ⟨hk, hinv⟩ := h
  constructor
  · exact nodup_keys_groupFoldAux d.id _ _ hk
  · intro t ps hps
    have hAidx := alookup_addFold d.id (groupPositions (tok d.content)) ix.index t
      (nodup_keys_groupPositions _)
    rw [show (ix.add_document tok d).index = (groupPositions (tok d.content)).foldl
      (fun idx g => apush g.1 (d.id, g.2) idx) ix.index from rfl, hAidx] at hps
    have hfreshid : ∀ e : ℕ × List ℕ, ∀ ps1, alookup t ix.index = some ps1 → e ∈ ps1 →
        e.1 ≠ d.id := by
      intro e ps1 hps1 he heq
      obtain ⟨doc, hdoc, _⟩ := (hinv t ps1 hps1).2 e he
      rw [heq, hd] at hdoc
      cases hdoc
    rcases hg : alookup t (groupPositions (tok d.content)) with _ | ps0
    · rw [hg] at hps
      obtain ⟨hnd, hdocs⟩ := hinv t ps hps
      refine ⟨hnd, ?_⟩
      intro e he
      obtain ⟨doc, hdoc, htok⟩ := hdocs e he
      exact ⟨doc, by
        rw [show (ix.add_document tok d).documents = aset d.id d ix.documents from rfl,
          alookup_aset_ne _ _ (hfreshid e ps hps he)]
        exact hdoc, htok⟩
    · rw [hg] at hps
      obtain rfl : (alookup t ix.index).getD [] ++ [(d.id, ps0)] = ps := Option.some.inj hps
      have htmem : t ∈ (tok d.content).map Prod.fst :=
        (mem_keys_groupPositions _ t).mp ((alookup_isSome t _).mp (by rw [hg]; rfl))
      rcases ho : alookup t ix.index with _ | old
      · refine ⟨by simp [ho], ?_⟩
        intro e he
        simp only [ho, Option.getD_none, List.nil_append, List.mem_singleton] at he
        subst he
        exact ⟨d, by
          rw [show (ix.add_document tok d).documents = aset d.id d ix.documents from rfl]
          exact alookup_aset_self _ _ _, htmem⟩
      · obtain ⟨hnd, hdocs⟩ := hinv t old ho
        simp only [ho, Option.getD_some]
        constructor
        · rw [List.map_append]
          refine List.Nodup.append hnd (by simp) ?_
          intro x hx hx'
          simp only [List.map_cons, List.map_nil, List.mem_singleton] at hx'
          rcases List.mem_map.mp hx with ⟨e, he, rfl⟩
          exact hfreshid e old ho he hx'
        · intro e he
          rcases List.mem_append.mp he with he | he
          · obtain ⟨doc, hdoc, htok⟩ := hdocs e he
            exact ⟨doc, by
              rw [show (ix.add_document tok d).documents = aset d.id d ix.documents from rfl,
                alookup_aset_ne _ _ (hfreshid e old ho he)]
              exact hdoc, htok⟩
          · simp only [List.mem_singleton] at he
            subst he
            exact ⟨d, by
              rw [show (ix.add_document tok d).documents = aset d.id d ix.documents from rfl]
              exact alookup_aset_self _ _ _, htmem⟩

theorem nodup_keys_removeFromPostings (t : String) (i : ℕ)
    (idx : List (String × List (ℕ × List ℕ))) (h : (idx.map Prod.fst).Nodup) :
    ((removeFromPostings t i idx).map Prod.fst).Nodup := by
  unfold removeFromPostings
  rcases ho : alookup t idx with _ | ps
  · exact h
  · by_cases hf : ps.filter (fun e => ! decide (e.1 = i)) = []
    · simp only [hf, if_pos]
      exact List.Nodup.sublist (keys_aremove_sublist t idx) h
    · simp only [hf, if_neg, ite_false]
      exact nodup_keys_aset t _ h

theorem nodup_keys_removeFold (i : ℕ) (l : List (String × ℕ))
    (idx : List (String × List (ℕ × List ℕ))) (h : (idx.map Prod.fst).Nodup) :
    (((l.foldl (fun ix tp => removeFromPostings tp.1 i ix) idx)).map Prod.fst).Nodup := by
  induction l generalizing idx with
  | nil => exact h
  | cons tp rest ih => exact ih _ (nodup_keys_removeFromPostings tp.1 i idx h)

theorem coherent_remove (tok : Tok) (ix : InvertedIndex K) (i : ℕ)
    (h : Coherent tok ix) : Coherent tok (ix.remove_document tok i) := by
  obtain ⟨hk, hinv⟩ := h
  rcases hd : alookup i ix.documents with _ | doc0
  · unfold InvertedIndex.remove_document
    rw [hd]
    exact ⟨hk, hinv⟩
  · have hrm : ix.remove_document tok i = { ix with
        documents := aremove i ix.documents
        index := (tok doc0.content).foldl (fun idx tp => removeFromPostings tp.1 i idx) ix.index
        tags := doc0.tags.foldl (fun tg t => removeFromTags t i tg) ix.tags
        search_cache := [] } := by
      unfold InvertedIndex.remove_document
      rw [hd]
    rw [hrm]
    constructor
    · exact nodup_keys_removeFold i _ _ hk
    · intro t ps hps
      rw [show ({ ix with
          documents := aremove i ix.documents
          index := (tok doc0.content).foldl (fun idx tp => removeFromPostings tp.1 i idx) ix.index
          tags := doc0.tags.foldl (fun tg t => removeFromTags t i tg) ix.tags
          search_cache := [] } : InvertedIndex K).index = (tok doc0.content).foldl
            (fun idx tp => removeFromPostings tp.1 i idx) ix.index from rfl,
        alookup_removeFold] at hps
      by_cases hm : t ∈ (tok doc0.content).map Prod.fst
      · rw [if_pos hm] at hps
        rcases ho : alookup t ix.index with _ | ps1
        · rw [ho] at hps
          simp [scrubWith] at hps
        · rw [ho] at hps
          by_cases hf : ps1.filter (fun e => ! decide (e.1 = i)) = []
          · simp [scrubWith, hf] at hps
          · simp only [scrubWith, if_neg hf, Option.some.injEq] at hps
            subst hps
            obtain ⟨hnd, hdocs⟩ := hinv t ps1 ho
            refine ⟨List.Nodup.sublist ((List.filter_sublist ps1).map Prod.fst) hnd, ?_⟩
            intro e he
            have he1 := List.mem_filter.mp he
            obtain ⟨doc, hdoc, htok⟩ := hdocs e he1.1
            have hne : e.1 ≠ i := by simpa using he1.2
            exact ⟨doc, by rw [alookup_aremove_ne _ hne]; exact hdoc, htok⟩
      · rw [if_neg hm] at hps
        obtain ⟨hnd, hdocs⟩ := hinv t ps hps
        refine ⟨hnd, ?_⟩
        intro e he
        obtain ⟨doc, hdoc, htok⟩ := hdocs e he
        have hne : e.1 ≠ i := by
          intro heq
          rw [heq, hd] at hdoc
          obtain rfl : doc0 = doc := Option.some.inj hdoc
          exact hm htok
        exact ⟨doc, by rw [alookup_aremove_ne _ hne]; exact hdoc, htok⟩

theorem coherent_removeFoldList (tok : Tok) (rem : List ℕ) (ix : InvertedIndex K)
    (h : Coherent tok ix) :
    Coherent tok (rem.foldl (fun j i => j.remove_document tok i) ix) := by
  induction rem generalizing ix with
  | nil => exact h
  | cons i rest ih => exact ih _ (coherent_remove tok ix i h)

theorem coherent_addFoldList (tok : Tok) (ds : List Document) (ix : InvertedIndex K)
    (h : Coherent tok ix) (hf : AddsFresh tok ds ix) :
    Coherent tok (ds.foldl (fun j d => j.add_document tok d) ix) := by
  induction ds generalizing ix with
  | nil => exact h
  | cons d rest ih => exact ih _ (coherent_add tok ix d h hf.1) hf.2

theorem coherent_sync (tok : Tok) (ix : InvertedIndex K) (rem : List ℕ)
    (adds : List Document) (h : Coherent tok ix)
    (hf : AddsFresh tok adds (rem.foldl (fun j i => j.remove_document tok i) ix)) :
    Coherent tok (ix.apply_directory_sync tok rem adds) :=
  coherent_addFoldList tok adds _ (coherent_removeFoldList tok rem ix h) hf

theorem coherent_roundtrip (tok : Tok) (ix ix2 : InvertedIndex K) (h : Coherent tok ix)
    (hrt : InvertedIndex.from_serialized_data ix.to_serialized_data = some ix2) :
    Coherent tok ix2 := by
  unfold InvertedIndex.from_serialized_data InvertedIndex.to_serialized_data at hrt
  by_cases hc : ix.cache_capacity = 0
  · simp [hc] at hrt
  · simp only [hc, if_false, ite_false, Option.some.injEq] at hrt
    subst hrt
    exact h

theorem coherent_of_reachable (tok : Tok) (ix : InvertedIndex K)
    (h : Reachable K tok ix) : Coherent tok ix := by
  induction h with
  | new => exact coherent_new tok
  | add ix d _ hd ih => exact coherent_add tok ix d ih hd
  | remove ix i _ ih => exact coherent_remove tok ix i ih
  | sync ix rem adds _ hf ih => exact coherent_sync tok ix rem adds ih hf
  | roundtrip ix ix2 _ hrt ih => exact coherent_roundtrip tok ix ix2 ih hrt

/-- C8 counterexample: the claim fails as literally stated, because the
public `add_document` accepts an arbitrary id: adding the same document
twice duplicates its id in every affected postings list. -/
theorem c8_postings_unique_counterexample :
    ¬ PostingsUnique (ixW.add_document tokW docW2) := by decide

/-- C8 amended: in every state reachable by the public operations with each
`add_document` using an id absent from the store (which the engine's atomic,
monotone id assignment ensures for all its own calls), each document id
appears at most once in any single token's postings list. -/
theorem c8_postings_unique_of_reachable (K : Type) [LinearOrderedField K] (tok : Tok)
    (ix : InvertedIndex K) (h : Reachable K tok ix) : PostingsUnique ix := by
  obtain ⟨hk, hinv⟩ := coherent_of_reachable tok ix h
  intro p hp
  exact (hinv p.1 p.2 (alookup_of_mem hk hp)).1

/-- Witness for C8 at the concrete two-document index. -/
theorem c8_postings_unique_of_reachable_witness : PostingsUnique ixW :=
  c8_postings_unique_of_reachable ℚ tokW ixW
    (Reachable.add _ docW2 (Reachable.add _ docW1 Reachable.new (by decide)) (by decide))

/-! ### Candidate-map lemmas shared by the keyword and phrase searches -/

theorem alookup_eq_find {a b : Type} [DecidableEq a] (k : a) (l : List (a × b)) :
    alookup k l = (l.find? (fun p => decide (p.1 = k))).map Prod.snd := by
  induction l with
  | nil => rfl
  | cons p rest ih =>
    by_cases h : p.1 = k
    · rw [List.find?_cons_of_pos _ (by simp [h])]
      obtain ⟨k0, v0⟩ := p
      simp only at h
      simp [alookup, h]
    · rw [List.find?_cons_of_neg _ (by simp [h])]
      obtain ⟨k0, v0⟩ := p
      simp only at h
      simp [alookup, h, ih]

theorem alookup_filter {a b : Type} [DecidableEq a] (P : a × b → Bool) (l : List (a × b))
    (hk : (l.map Prod.fst).Nodup) (k : a) :
    alookup k (l.filter P) =
      match alookup k l with
      | some v => if P (k, v) then some v else none
      | none => none := by
  induction l with
  | nil => rfl
  | cons p rest ih =>
    obtain ⟨k0, v0⟩ := p
    simp only [List.map_cons, List.nodup_cons] at hk
    by_cases h : k0 = k
    · subst h
      have hrest : alookup k0 (rest.filter P) = none := by
        rw [alookup_eq_none]
        intro hmem
        exact hk.1 (((List.filter_sublist rest).map Prod.fst).subset hmem)
      rcases hp : P (k0, v0) with _ | _
      · simp [List.filter_cons, hp, alookup, hrest]
      · simp [List.filter_cons, hp, alookup]
    · rcases hp : P (k0, v0) with _ | _
      · simp [List.filter_cons, hp, alookup, h, ih hk.2]
      · simp [List.filter_cons, hp, alookup, h, ih hk.2]

theorem alookup_cinsert_self (d : ℕ) (t : String) (ps : List ℕ)
    (c : List (ℕ × List (String × List ℕ))) :
    alookup d (cinsert d t ps c) = some (aset t ps ((alookup d c).getD [])) :=
  alookup_aset_self _ _ _

theorem alookup_cinsert_ne {d d' : ℕ} (t : String) (ps : List ℕ)
    (c : List (ℕ × List (String × List ℕ))) (h : d' ≠ d) :
    alookup d' (cinsert d t ps c) = alookup d' c :=
  alookup_aset_ne _ _ h

/-- Characterization of the per-token candidate insertion fold (used by both
searches) at a single document key, for a postings list with unique ids. -/
theorem alookup_cinsertFold (t : String) (entries : List (ℕ × List ℕ))
    (c : List (ℕ × List (String × List ℕ))) (d : ℕ)
    (hn : (entries.map Prod.fst).Nodup) :
    alookup d (entries.foldl (fun cc e => cinsert e.1 t e.2 cc) c) =
      match entries.find? (fun e => decide (e.1 = d)) with
      | some e => some (aset t e.2 ((alookup d c).getD []))
      | none => alookup d c := by
  induction entries generalizing c with
  | nil => simp
  | cons e rest ih =>
    simp only [List.map_cons, List.nodup_cons] at hn
    simp only [List.foldl_cons]
    rw [ih _ hn.2]
    by_cases he : e.1 = d
    · have hfr : rest.find? (fun x => decide (x.1 = d)) = none := by
        rw [List.find?_eq_none]
        intro x hx
        simp only [decide_eq_true_eq]
        intro hxd
        apply hn.1
        rw [he]
        exact List.mem_map.mpr ⟨x, hx, hxd⟩
      rw [hfr, List.find?_cons_of_pos _ (by simp [he])]
      rw [show alookup d (cinsert e.1 t e.2 c) =
        some (aset t e.2 ((alookup d c).getD [])) from he ▸ alookup_cinsert_self _ _ _ _]
    · rw [List.find?_cons_of_neg _ (by simp [he])]
      rw [show alookup d (cinsert e.1 t e.2 c) = alookup d c from
        alookup_cinsert_ne _ _ _ (fun hh => he hh.symm)]

theorem nodup_keys_cinsert (d : ℕ) (t : String) (ps : List ℕ)
    {c : List (ℕ × List (String × List ℕ))} (h : (c.map Prod.fst).Nodup) :
    ((cinsert d t ps c).map Prod.fst).Nodup :=
  nodup_keys_aset _ _ h

theorem nodup_keys_cinsertFold (t : String) (entries : List (ℕ × List ℕ))
    {c : List (ℕ × List (String × List ℕ))} (h : (c.map Prod.fst).Nodup) :
    (((entries.foldl (fun cc e => cinsert e.1 t e.2 cc) c)).map Prod.fst).Nodup := by
  induction entries generalizing c with
  | nil => exact h
  | cons e rest ih => exact ih (nodup_keys_cinsert _ _ _ h)

/-- Lookup in `collect::<HashMap>` of a postings list with unique ids is the
first (unique) entry. -/
theorem alookup_collectMapFold (entries : List (ℕ × List ℕ)) (m0 : List (ℕ × List ℕ))
    (d : ℕ) (hn : (entries.map Prod.fst).Nodup) :
    alookup d (entries.foldl (fun m e => aset e.1 e.2 m) m0) =
      match entries.find? (fun e => decide (e.1 = d)) with
      | some e => some e.2
      | none => alookup d m0 := by
  induction entries generalizing m0 with
  | nil => simp
  | cons e rest ih =>
    simp only [List.map_cons, List.nodup_cons] at hn
    simp only [List.foldl_cons]
    rw [ih _ hn.2]
    by_cases he : e.1 = d
    · have hfr : rest.find? (fun x => decide (x.1 = d)) = none := by
        rw [List.find?_eq_none]
        intro x hx
        simp only [decide_eq_true_eq]
        intro hxd
        apply hn.1
        rw [he]
        exact List.mem_map.mpr ⟨x, hx, hxd⟩
      rw [hfr, List.find?_cons_of_pos _ (by simp [he]),
        show alookup d (aset e.1 e.2 m0) = some e.2 from he ▸ alookup_aset_self _ _ _]
    · rw [List.find?_cons_of_neg _ (by simp [he]),
        show alookup d (aset e.1 e.2 m0) = alookup d m0 from
          alookup_aset_ne _ _ (fun hh => he hh.symm)]

theorem alookup_collectMap (entries : List (ℕ × List ℕ)) (d : ℕ)
    (hn : (entries.map Prod.fst).Nodup) :
    alookup d (collectMap entries) =
      (entries.find? (fun e => decide (e.1 = d))).map Prod.snd := by
  unfold collectMap
  rw [alookup_collectMapFold entries [] d hn]
  rcases hfind : entries.find? (fun e => decide (e.1 = d)) with _ | e <;> simp [hfind, alookup]

/-- Characterization of the guarded insertion fold of the phrase search. -/
theorem alookup_guardFold (t : String) (em : List (ℕ × List ℕ))
    (c0 : List (ℕ × List (String × List ℕ))) (d : ℕ)
    (hn : (em.map Prod.fst).Nodup) :
    alookup d (em.foldl
        (fun c e => if (alookup e.1 c).isSome then cinsert e.1 t e.2 c else c) c0) =
      match alookup d c0, em.find? (fun e => decide (e.1 = d)) with
      | some tm, some e => some (aset t e.2 tm)
      | some tm, none => some tm
      | none, _ => none := by
  induction em generalizing c0 with
  | nil =>
    simp only [List.foldl_nil, List.find?_nil]
    rcases alookup d c0 with _ | tm <;> rfl
  | cons e rest ih =>
    simp only [List.map_cons, List.nodup_cons] at hn
    simp only [List.foldl_cons]
    rw [ih _ hn.2]
    by_cases he : e.1 = d
    · subst he
      have hfr : rest.find? (fun x => decide (x.1 = e.1)) = none := by
        rw [List.find?_eq_none]
        intro x hx
        simp only [decide_eq_true_eq]
        intro hxd
        exact hn.1 (List.mem_map.mpr ⟨x, hx, hxd⟩)
      rw [hfr, List.find?_cons_of_pos _ (by simp)]
      rcases ho : alookup e.1 c0 with _ | tm <;>
        simp [ho, alookup_cinsert_self]
    · rw [List.find?_cons_of_neg _ (by simp [he])]
      by_cases hg : (alookup e.1 c0).isSome = true
      · rw [if_pos hg]
        rw [show alookup d (cinsert e.1 t e.2 c0) = alookup d c0 from
          alookup_cinsert_ne _ _ _ (fun hh => he hh.symm)]
      · rw [if_neg hg]

/-! ### Result construction lemmas -/

theorem buildResults_mem_fwd (mkSnip : Document → Option String) (ix : InvertedIndex K) :
    ∀ (ranked : List (K × ℕ)) (out : List (SearchResult K)),
      buildResults mkSnip ix ranked = some out → ∀ r ∈ out,
      ∃ sd ∈ ranked, alookup sd.2 ix.documents = some r.doc ∧ r.score = sd.1 := by
  intro ranked
  induction ranked with
  | nil =>
    intro out h r hr
    obtain rfl : ([] : List (SearchResult K)) = out := Option.some.inj h
    cases hr
  | cons sd rest ih =>
    intro out h r hr
    obtain ⟨s, d⟩ := sd
    simp only [buildResults] at h
    rcases hdoc : alookup d ix.documents with _ | doc
    · simp only [hdoc, Option.map_some, Option.map_none] at h
      obtain ⟨sd', hsd', hprop⟩ := ih out h r hr
      exact ⟨sd', List.mem_cons_of_mem _ hsd', hprop⟩
    · simp only [hdoc, Option.map_some, Option.map_none] at h
      rcases hsn : mkSnip doc with _ | sn
      · simp only [hsn, Option.map_some, Option.map_none] at h
        cases h
      · simp only [hsn, Option.map_some, Option.map_none] at h
        rcases hrest : buildResults mkSnip ix rest with _ | rs
        · simp only [hrest, Option.map_some, Option.map_none] at h
          cases h
        · simp only [hrest, Option.map_some, Option.map_none] at h
          obtain rfl : (⟨doc, s, sn, doc.tags⟩ : SearchResult K) :: rs = out :=
            Option.some.inj h
          rcases List.mem_cons.mp hr with rfl | hr'
          · exact ⟨(s, d), List.mem_cons_self _ _, hdoc, rfl⟩
          · obtain ⟨sd', hsd', hprop⟩ := ih rs hrest r hr'
            exact ⟨sd', List.mem_cons_of_mem _ hsd', hprop⟩

theorem buildResults_mem_bwd (mkSnip : Document → Option String) (ix : InvertedIndex K) :
    ∀ (ranked : List (K × ℕ)) (out : List (SearchResult K)),
      buildResults mkSnip ix ranked = some out →
      ∀ sd ∈ ranked, ∀ doc, alookup sd.2 ix.documents = some doc →
      ∃ r ∈ out, r.doc = doc ∧ r.score = sd.1 := by
  intro ranked
  induction ranked with
  | nil =>
    intro out _ sd hsd
    cases hsd
  | cons sd0 rest ih =>
    intro out h sd hsd doc hdoc
    obtain ⟨s, d⟩ := sd0
    simp only [buildResults] at h
    rcases List.mem_cons.mp hsd with rfl | hsd'
    · simp only [hdoc, Option.map_some, Option.map_none] at h
      rcases hsn : mkSnip doc with _ | sn
      · simp only [hsn, Option.map_some, Option.map_none] at h
        cases h
      · simp only [hsn, Option.map_some, Option.map_none] at h
        rcases hrest : buildResults mkSnip ix rest with _ | rs
        · simp only [hrest, Option.map_some, Option.map_none] at h
          cases h
        · simp only [hrest, Option.map_some, Option.map_none] at h
          obtain rfl : (⟨doc, s, sn, doc.tags⟩ : SearchResult K) :: rs = out :=
            Option.some.inj h
          exact ⟨_, List.mem_cons_self _ _, rfl, rfl⟩
    · rcases hdoc0 : alookup d ix.documents with _ | doc0
      · simp only [hdoc0, Option.map_some, Option.map_none] at h
        obtain ⟨r, hr, hprop⟩ := ih out h sd hsd' doc hdoc
        exact ⟨r, hr, hprop⟩
      · simp only [hdoc0, Option.map_some, Option.map_none] at h
        rcases hsn : mkSnip doc0 with _ | sn
        · simp only [hsn, Option.map_some, Option.map_none] at h
          cases h
        · simp only [hsn, Option.map_some, Option.map_none] at h
          rcases hrest : buildResults mkSnip ix rest with _ | rs
          · simp only [hrest, Option.map_some, Option.map_none] at h
            cases h
          · simp only [hrest, Option.map_some, Option.map_none] at h
            obtain rfl : (⟨doc0, s, sn, doc0.tags⟩ : SearchResult K) :: rs = out :=
              Option.some.inj h
            obtain ⟨r, hr, hprop⟩ := ih rs hrest sd hsd' doc hdoc
            exact ⟨r, List.mem_cons_of_mem _ hr, hprop⟩

theorem buildResults_scores_sublist (mkSnip : Document → Option String)
    (ix : InvertedIndex K) :
    ∀ (ranked : List (K × ℕ)) (out : List (SearchResult K)),
      buildResults mkSnip ix ranked = some out →
      List.Sublist (out.map (fun r => r.score)) (ranked.map Prod.fst) := by
  intro ranked
  induction ranked with
  | nil =>
    intro out h
    obtain rfl : ([] : List (SearchResult K)) = out := Option.some.inj h
    simp
  | cons sd rest ih =>
    intro out h
    obtain ⟨s, d⟩ := sd
    simp only [buildResults] at h
    rcases hdoc : alookup d ix.documents with _ | doc
    · simp only [hdoc, Option.map_some, Option.map_none] at h
      exact (ih out h).trans (List.sublist_cons_self _ _)
    · simp only [hdoc, Option.map_some, Option.map_none] at h
      rcases hsn : mkSnip doc with _ | sn
      · simp only [hsn, Option.map_some, Option.map_none] at h
        cases h
      · simp only [hsn, Option.map_some, Option.map_none] at h
        rcases hrest : buildResults mkSnip ix rest with _ | rs
        · simp only [hrest, Option.map_some, Option.map_none] at h
          cases h
        · simp only [hrest, Option.map_some, Option.map_none] at h
          obtain rfl : (⟨doc, s, sn, doc.tags⟩ : SearchResult K) :: rs = out :=
            Option.some.inj h
          simpa using List.Sublist.cons₂ s (ih rs hrest)

theorem nodup_keys_collectMap (entries : List (ℕ × List ℕ)) :
    ((collectMap entries).map Prod.fst).Nodup := by
  unfold collectMap
  have : ∀ m0 : List (ℕ × List ℕ), (m0.map Prod.fst).Nodup →
      ((entries.foldl (fun m e => aset e.1 e.2 m) m0).map Prod.fst).Nodup := by
    induction entries with
    | nil => exact fun m0 h => h
    | cons e rest ih => exact fun m0 h => ih _ (nodup_keys_aset _ _ h)
  exact this [] (by simp)

theorem nodup_keys_guardFold (t : String) (em : List (ℕ × List ℕ))
    {c0 : List (ℕ × List (String × List ℕ))} (h : (c0.map Prod.fst).Nodup) :
    ((em.foldl (fun c e => if (alookup e.1 c).isSome then cinsert e.1 t e.2 c else c)
      c0).map Prod.fst).Nodup := by
  induction em generalizing c0 with
  | nil => exact h
  | cons e rest ih =>
    simp only [List.foldl_cons]
    by_cases hg : (alookup e.1 c0).isSome = true
    · rw [if_pos hg]
      exact ih (nodup_keys_cinsert _ _ _ h)
    · rw [if_neg hg]
      exact ih h

/-! ### The phrase-intersection invariant -/

/-- Invariant of the phrase-intersection accumulator after processing the
non-empty token prefix `done`: keys are unique; a present document carries
exactly the postings position lists of the processed tokens, and every
document carried by all processed tokens is present. -/
def PhaseInv (ix : InvertedIndex K) (done : List String)
    (acc : List (ℕ × List (String × List ℕ))) : Prop :=
  ((acc.map Prod.fst).Nodup) ∧
  (∀ d tm, alookup d acc = some tm →
    ∀ t ∈ done, alookup t tm = docEntry ix t d ∧ (docEntry ix t d).isSome = true) ∧
  (∀ d, (∀ t ∈ done, (docEntry ix t d).isSome = true) → (alookup d acc).isSome = true)

theorem docEntry_of_lookup {ix : InvertedIndex K} {t : String} {entries : List (ℕ × List ℕ)}
    (hent : alookup t ix.index = some entries) (d : ℕ) :
    docEntry ix t d = (entries.find? (fun e => decide (e.1 = d))).map Prod.snd := by
  unfold docEntry
  rw [hent]
  rfl

theorem phaseInv_first {ix : InvertedIndex K} (hu : PostingsUnique ix) (t0 : String)
    (entries : List (ℕ × List ℕ)) (hent : alookup t0 ix.index = some entries) :
    PhaseInv ix [t0] (entries.foldl (fun c e => cinsert e.1 t0 e.2 c) []) := by
  have hn : (entries.map Prod.fst).Nodup := hu _ (mem_of_alookup hent)
  have hchar := fun d => alookup_cinsertFold t0 entries [] d hn
  have hdent := docEntry_of_lookup hent
  refine ⟨nodup_keys_cinsertFold _ _ (by simp), ?_, ?_⟩
  · intro d tm htm t ht
    rcases List.mem_singleton.mp ht with rfl
    rw [hchar d] at htm
    rcases hf : entries.find? (fun e => decide (e.1 = d)) with _ | e
    · rw [hf] at htm
      cases htm
    · rw [hf] at htm
      obtain rfl : aset t ((e : ℕ × List ℕ).2)
          ((alookup d ([] : List (ℕ × List (String × List ℕ)))).getD []) = tm :=
        Option.some.inj htm
      rw [hdent d, hf]
      exact ⟨alookup_aset_self _ _ _, rfl⟩
  · intro d hall
    have h0 := hall t0 (List.mem_singleton_self t0)
    rw [hdent d] at h0
    rcases hf : entries.find? (fun e => decide (e.1 = d)) with _ | e
    · rw [hf] at h0
      cases h0
    · rw [hchar d, hf]
      rfl

theorem phaseInv_step {ix : InvertedIndex K} (hu : PostingsUnique ix)
    (done : List String) (t : String) (acc : List (ℕ × List (String × List ℕ)))
    (hinv : PhaseInv ix done acc) (entries : List (ℕ × List ℕ))
    (hent : alookup t ix.index = some entries) :
    PhaseInv ix (done ++ [t])
      ((collectMap entries).foldl
        (fun c e => if (alookup e.1 c).isSome then cinsert e.1 t e.2 c else c)
        (acc.filter (fun p => (alookup p.1 (collectMap entries)).isSome))) := by
  obtain ⟨hk, hfwd, hbwd⟩ := hinv
  have hn : (entries.map Prod.fst).Nodup := hu _ (mem_of_alookup hent)
  have hdent := docEntry_of_lookup hent
  have hem : ∀ d, alookup d (collectMap entries) = docEntry ix t d := by
    intro d
    rw [alookup_collectMap entries d hn, hdent d]
  have hemfind : ∀ d, alookup d (collectMap entries) =
      ((collectMap entries).find? (fun e => decide (e.1 = d))).map Prod.snd :=
    fun d => alookup_eq_find d _
  have hfil := fun d => alookup_filter
    (fun p : ℕ × List (String × List ℕ) => (alookup p.1 (collectMap entries)).isSome)
    acc hk d
  have hguard := fun d => alookup_guardFold t (collectMap entries)
    (acc.filter (fun p => (alookup p.1 (collectMap entries)).isSome)) d
    (nodup_keys_collectMap entries)
  refine ⟨nodup_keys_guardFold _ _
    (List.Nodup.sublist ((List.filter_sublist acc).map Prod.fst) hk), ?_, ?_⟩
  · intro d tm' htm' t' ht'
    rw [hguard d] at htm'
    rcases ha1 : alookup d (acc.filter
        (fun p => (alookup p.1 (collectMap entries)).isSome)) with _ | tm
    · rw [ha1] at htm'
      cases htm'
    · have ha1' := ha1
      rw [hfil d] at ha1'
      rcases hacc : alookup d acc with _ | tm0
      · rw [hacc] at ha1'
        cases ha1'
      · rw [hacc] at ha1'
        by_cases hp : (alookup d (collectMap entries)).isSome = true
        · simp only [hp, if_true, ite_true, Option.some.injEq] at ha1'
          rw [ha1'] at hacc
          rcases hfe : (collectMap entries).find? (fun e => decide (e.1 = d)) with _ | e
          · rw [hemfind d, hfe] at hp
            cases hp
          · rw [ha1, hfe] at htm'
            obtain rfl : aset t e.2 tm = tm' := Option.some.inj htm'
            have hesnd : docEntry ix t d = some e.2 := by
              rw [← hem d, hemfind d, hfe]
              rfl
            rcases List.mem_append.mp ht' with ht' | ht'
            · by_cases hte : t' = t
              · subst hte
                rw [alookup_aset_self]
                exact ⟨hesnd.symm, by rw [hesnd]; rfl⟩
              · rw [alookup_aset_ne _ _ hte]
                exact hfwd d tm hacc t' ht'
            · rcases List.mem_singleton.mp ht' with rfl
              rw [alookup_aset_self]
              exact ⟨hesnd.symm, by rw [hesnd]; rfl⟩
        · simp only [hp, if_false, ite_false] at ha1'
          cases ha1'
  · intro d hall
    have hdone : ∀ t' ∈ done, (docEntry ix t' d).isSome = true := by
      intro t' ht'
      exact hall t' (List.mem_append.mpr (Or.inl ht'))
    have ht : (docEntry ix t d).isSome = true :=
      hall t (List.mem_append.mpr (Or.inr (List.mem_singleton_self t)))
    rcases Option.isSome_iff_exists.mp (hbwd d hdone) with ⟨tm, htm⟩
    have ha1 : alookup d (acc.filter
        (fun p => (alookup p.1 (collectMap entries)).isSome)) = some tm := by
      rw [hfil d, htm]
      simp only [hem d, ht, if_true, ite_true]
    rcases hfe : (collectMap entries).find? (fun e => decide (e.1 = d)) with _ | e
    · rw [← hem d, hemfind d, hfe] at ht
      cases ht
    · rw [hguard d, ha1, hfe]
      rfl

theorem phraseCollect_inv {ix : InvertedIndex K} (hu : PostingsUnique ix) :
    ∀ (ts done : List String) (acc common : List (ℕ × List (String × List ℕ))),
      PhaseInv ix done acc →
      phraseCollect ix ts false acc = some common →
      PhaseInv ix (done ++ ts) common := by
  intro ts
  induction ts with
  | nil =>
    intro done acc common hinv h
    obtain rfl : acc = common := Option.some.inj h
    simpa using hinv
  | cons t rest ih =>
    intro done acc common hinv h
    simp only [phraseCollect] at h
    rcases hent : alookup t ix.index with _ | entries
    · rw [hent] at h
      cases h
    · rw [hent] at h
      simp only [Bool.false_eq_true, if_false, ite_false] at h
      have := ih (done ++ [t]) _ common (phaseInv_step hu done t acc hinv entries hent) h
      simpa [List.append_assoc] using this

theorem phraseCollect_char {ix : InvertedIndex K} (hu : PostingsUnique ix)
    (t0 : String) (rest : List String) (common : List (ℕ × List (String × List ℕ)))
    (h : phraseCollect ix (t0 :: rest) true [] = some common) :
    PhaseInv ix (t0 :: rest) common := by
  simp only [phraseCollect] at h
  rcases hent : alookup t0 ix.index with _ | entries
  · rw [hent] at h
    cases h
  · rw [hent] at h
    simp only [if_true, ite_true] at h
    have := phraseCollect_inv hu rest [t0] _ common (phaseInv_first hu t0 entries hent) h
    simpa using this

theorem phraseCollect_none {ix : InvertedIndex K} :
    ∀ (ts : List String) (b : Bool) (acc : List (ℕ × List (String × List ℕ)))
      (t : String), t ∈ ts → alookup t ix.index = none →
      phraseCollect ix ts b acc = none := by
  intro ts
  induction ts with
  | nil =>
    intro b acc t ht
    cases ht
  | cons t0 rest ih =>
    intro b acc t ht hnone
    simp only [phraseCollect]
    rcases List.mem_cons.mp ht with rfl | ht'
    · rw [hnone]
    · rcases hent : alookup t0 ix.index with _ | entries
      · rfl
      · rcases b with _ | _ <;> simp only [Bool.false_eq_true, if_false, ite_false,
          if_true, ite_true] <;> exact ih _ _ t ht' hnone

theorem phraseCollect_eq_none {ix : InvertedIndex K} :
    ∀ (ts : List String) (b : Bool) (acc : List (ℕ × List (String × List ℕ))),
      phraseCollect ix ts b acc = none → ∃ t ∈ ts, alookup t ix.index = none := by
  intro ts
  induction ts with
  | nil =>
    intro b acc h
    cases h
  | cons t0 rest ih =>
    intro b acc h
    simp only [phraseCollect] at h
    rcases hent : alookup t0 ix.index with _ | entries
    · exact ⟨t0, List.mem_cons_self _ _, hent⟩
    · rw [hent] at h
      rcases b with _ | _
      · simp only [Bool.false_eq_true, if_false, ite_false] at h
        obtain ⟨t, ht, hnone⟩ := ih _ _ h
        exact ⟨t, List.mem_cons_of_mem _ ht, hnone⟩
      · simp only [if_true, ite_true] at h
        obtain ⟨t, ht, hnone⟩ := ih _ _ h
        exact ⟨t, List.mem_cons_of_mem _ ht, hnone⟩

theorem alignFrom_eq (ix : InvertedIndex K) (d : ℕ) (tm : List (String × List ℕ))
    (sub : List String)
    (hsub : ∀ t ∈ sub, alookup t tm = docEntry ix t d) :
    ∀ p i, alignFrom tm p sub i = alignIdx ix d p sub i := by
  induction sub with
  | nil => intro p i; rfl
  | cons t rest ih =>
    intro p i
    simp only [alignFrom, alignIdx]
    rw [hsub t (List.mem_cons_self _ _),
      ih (fun t' ht' => hsub t' (List.mem_cons_of_mem _ ht')) p (i + 1)]
    rfl

theorem phraseCount_eq (ix : InvertedIndex K) (d : ℕ) (tm : List (String × List ℕ))
    (ts : List String) (hne : ts ≠ [])
    (hsub : ∀ t ∈ ts, alookup t tm = docEntry ix t d) :
    phraseMatchCount tm ts = phraseCountClaim ix ts d := by
  unfold phraseMatchCount phraseCountClaim
  rcases ts with _ | ⟨t0, rest⟩
  · cases hne rfl
  · simp only [List.headD_cons, List.drop_succ_cons, List.drop_zero]
    rw [hsub t0 (List.mem_cons_self _ _)]
    exact List.countP_congr (fun p _ => by
      rw [alignFrom_eq ix d tm rest (fun t' ht' => hsub t' (List.mem_cons_of_mem _ ht')) p 1])

/-- Descending sortedness transfers from the ranked pair list to the result
list through `buildResults`. -/
theorem buildResults_sorted (mkSnip : Document → Option String) (ix : InvertedIndex K)
    (ranked : List (K × ℕ)) (out : List (SearchResult K))
    (h : buildResults mkSnip ix ranked = some out)
    (hs : (ranked.map Prod.fst).Pairwise (fun a b : K => b ≤ a)) :
    out.Pairwise (fun a b : SearchResult K => b.score ≤ a.score) := by
  have hsub := buildResults_scores_sublist mkSnip ix ranked out h
  have := hs.sublist hsub
  exact (List.pairwise_map.mp this)

theorem perm_descPairs (l : List (K × ℕ)) : (descPairs l).Perm l := perm_sortBy _ _

theorem pairwise_descPairs (l : List (K × ℕ)) :
    ((descPairs l).map Prod.fst).Pairwise (fun a b : K => b ≤ a) := by
  have hpw := pairwise_sortBy (fun a b : K × ℕ => decide (b.1 ≤ a.1))
    (fun a b => by
      rcases le_total b.1 a.1 with h | h <;> simp [h])
    (fun a b c h1 h2 => by
      simp only [decide_eq_true_eq] at h1 h2 ⊢
      exact le_trans h2 h1) l
  rw [List.pairwise_map]
  exact hpw.imp (fun h => by simpa using h)

/-! ### C4: phrase search -/

/-- C4: for a phrase query tokenizing to the non-empty stemmed sequence `ts`
(under the postings-uniqueness and store-keying invariants, which hold in
every reachable state): a token with no postings entry forces an empty
result; a stored document is returned iff every phrase token's postings
carry it and it has at least one verified alignment (an occurrence `p` of
the first token with token `i` at `p + i` for every `i`); each returned
score is the number of verified alignments; results are sorted by
descending match count. -/
theorem c4_phrase_search (K : Type) [LinearOrderedField K] (tok : Tok)
    (hl : List String → String → String) (ix : InvertedIndex K)
    (phraseText : String) (ts : List String)
    (hu : PostingsUnique ix) (hkeys : StoreKeyed ix)
    (hts : ts = (tok phraseText).map Prod.fst) (hne : ts ≠ []) :
    ∀ out, ix.perform_phrase_search_and_rank tok hl phraseText = some out →
      ((∃ t ∈ ts, alookup t ix.index = none) → out = []) ∧
      (∀ r ∈ out, r.score = (phraseCountClaim ix ts r.doc.id : K)) ∧
      (∀ d doc, alookup d ix.documents = some doc →
        ((∃ r ∈ out, r.doc = doc) ↔
          (∀ t ∈ ts, (docEntry ix t d).isSome = true) ∧ 0 < phraseCountClaim ix ts d)) ∧
      out.Pairwise (fun a b => b.score ≤ a.score) := by
  intro out hres
  rcases ts with _ | ⟨t0, rest⟩
  · cases hne rfl
  unfold InvertedIndex.perform_phrase_search_and_rank at hres
  rw [← hts] at hres
  simp only [List.isEmpty_cons, Bool.false_eq_true, if_false, ite_false] at hres
  rcases hcol : phraseCollect ix (t0 :: rest) true [] with _ | common
  · simp only [hcol] at hres
    obtain rfl : ([] : List (SearchResult K)) = out := Option.some.inj hres
    refine ⟨fun _ => rfl, fun r hr => absurd hr (List.not_mem_nil _), ?_, List.Pairwise.nil⟩
    intro d doc hdoc
    constructor
    · rintro ⟨r, hr, _⟩
      cases hr
    · rintro ⟨hall, _⟩
      obtain ⟨t, ht, hnone⟩ := phraseCollect_eq_none _ _ _ hcol
      have hfalse := hall t ht
      rw [show docEntry ix t d = none from by unfold docEntry; rw [hnone]; rfl] at hfalse
      cases hfalse
  · simp only [hcol] at hres
    obtain ⟨hkc, hfwd, hbwd⟩ := phraseCollect_char hu t0 rest common hcol
    have hcnt : ∀ p ∈ common, phraseMatchCount p.2 (t0 :: rest) =
        phraseCountClaim ix (t0 :: rest) p.1 := by
      intro p hp
      exact phraseCount_eq ix p.1 p.2 (t0 :: rest) (by simp)
        (fun t ht => (hfwd p.1 p.2 (alookup_of_mem hkc hp) t ht).1)
    refine ⟨?_, ?_, ?_, ?_⟩
    · intro ⟨t, ht, hnone⟩
      rw [phraseCollect_none _ _ _ t ht hnone] at hcol
      cases hcol
    · intro r hr
      obtain ⟨sd, hsd, hdoc, hscore⟩ :=
        buildResults_mem_fwd _ ix _ out hres r hr
      have hsd0 : sd ∈ phraseRankPairs K (t0 :: rest) common :=
        (perm_descPairs _).mem_iff.mp hsd
      obtain ⟨p, hp, hval⟩ := List.mem_filterMap.mp hsd0
      by_cases hz : phraseMatchCount p.2 (t0 :: rest) = 0
      · simp [hz] at hval
      · simp only [hz, if_neg, ite_false, Option.some.injEq] at hval
        have hid : r.doc.id = sd.2 := by
          rw [hkeys (sd.2, r.doc) (mem_of_alookup hdoc)]
        rw [hscore, hid, ← hval]
        exact congrArg (fun n : ℕ => (n : K)) (hcnt p hp)
    · intro d doc hdoc
      constructor
      · rintro ⟨r, hr, rfl⟩
        obtain ⟨sd, hsd, hdoc', hscore⟩ :=
          buildResults_mem_fwd _ ix _ out hres r hr
        have hsd0 : sd ∈ phraseRankPairs K (t0 :: rest) common :=
          (perm_descPairs _).mem_iff.mp hsd
        obtain ⟨p, hp, hval⟩ := List.mem_filterMap.mp hsd0
        by_cases hz : phraseMatchCount p.2 (t0 :: rest) = 0
        · simp [hz] at hval
        · simp only [hz, if_neg, ite_false, Option.some.injEq] at hval
          have hd1 : d = r.doc.id := (hkeys (d, r.doc) (mem_of_alookup hdoc)).symm
          have hd2 : r.doc.id = sd.2 := hkeys (sd.2, r.doc) (mem_of_alookup hdoc')
          have hdp : d = p.1 := by rw [hd1, hd2, ← hval]
          subst hdp
          have htm := hfwd p.1 p.2 (alookup_of_mem hkc hp)
          refine ⟨fun t ht => (htm t ht).2, ?_⟩
          rw [← hcnt p hp]
          exact Nat.pos_of_ne_zero hz
      · rintro ⟨hall, hcount⟩
        rcases Option.isSome_iff_exists.mp (hbwd d hall) with ⟨tm, htm⟩
        have hmem : (d, tm) ∈ common := mem_of_alookup htm
        have hzc : phraseMatchCount tm (t0 :: rest) ≠ 0 := by
          rw [show phraseMatchCount tm (t0 :: rest) =
            phraseCountClaim ix (t0 :: rest) d from hcnt (d, tm) hmem]
          exact Nat.pos_iff_ne_zero.mp hcount
        have hsd0 : ((phraseMatchCount tm (t0 :: rest) : K), d) ∈
            phraseRankPairs K (t0 :: rest) common :=
          List.mem_filterMap.mpr ⟨(d, tm), hmem, by simp [hzc]⟩
        have hsd : ((phraseMatchCount tm (t0 :: rest) : K), d) ∈
            descPairs (phraseRankPairs K (t0 :: rest) common) :=
          (perm_descPairs _).mem_iff.mpr hsd0
        obtain ⟨r, hr, hrdoc, _⟩ :=
          buildResults_mem_bwd _ ix _ out hres _ hsd doc hdoc
        exact ⟨r, hr, hrdoc⟩
    · exact buildResults_sorted _ ix _ out hres (pairwise_descPairs _)

/-- Witness for C4 at the concrete index and the phrase query "apple cherry". -/
theorem c4_phrase_search_witness :
    PostingsUnique ixW ∧ StoreKeyed ixW ∧
    (["apple", "cherry"] = (tokW "apple cherry").map Prod.fst) ∧
    (∀ out, ixW.perform_phrase_search_and_rank tokW hlW "apple cherry" = some out →
      ((∃ t ∈ ["apple", "cherry"], alookup t ixW.index = none) → out = []) ∧
      (∀ r ∈ out, r.score = (phraseCountClaim ixW ["apple", "cherry"] r.doc.id : ℚ)) ∧
      (∀ d doc, alookup d ixW.documents = some doc →
        ((∃ r ∈ out, r.doc = doc) ↔
          (∀ t ∈ ["apple", "cherry"], (docEntry ixW t d).isSome = true) ∧
            0 < phraseCountClaim ixW ["apple", "cherry"] d)) ∧
      out.Pairwise (fun a b => b.score ≤ a.score)) :=
  ⟨by decide, by decide, by decide,
    c4_phrase_search ℚ tokW hlW ixW "apple cherry" ["apple", "cherry"]
      (by decide) (by decide) (by decide) (by decide)⟩

/-! ### C2: keyword BM25 ranking -/

theorem alookup_isSome_of_mem {a b : Type} [DecidableEq a] {l : List (a × b)}
    {p : a × b} (hp : p ∈ l) : (alookup p.1 l).isSome = true := by
  induction l with
  | nil => cases hp
  | cons q rest ih =>
    obtain ⟨k, v⟩ := q
    by_cases hk : k = p.1
    · simp [alookup, hk]
    · rcases List.mem_cons.mp hp with heq | hmem
      · rw [heq] at hk
        exact absurd rfl hk
      · simp [alookup, hk, ih hmem]

/-- The head of the fuzzy-candidate list is an indexed token. -/
theorem fuzzy_head_indexed {ix : InvertedIndex K} {t : String} {m : String × ℕ}
    (h : (ix.find_fuzzy_matches t).head? = some m) :
    (alookup m.1 ix.index).isSome = true := by
  have hmem : m ∈ ix.find_fuzzy_matches t := by
    rcases hl : ix.find_fuzzy_matches t with _ | ⟨x, xs⟩
    · rw [hl] at h
      cases h
    · rw [hl] at h
      obtain rfl : x = m := Option.some.inj h
      exact List.mem_cons_self _ _
  have hmem2 : m ∈ ix.index.filterMap (fun p =>
      let d := levStr t p.1
      if d ≤ 2 then some (p.1, d) else none) := by
    unfold InvertedIndex.find_fuzzy_matches at hmem
    exact (perm_sortBy _ _).mem_iff.mp hmem
  obtain ⟨p, hp, hval⟩ := List.mem_filterMap.mp hmem2
  by_cases hd : levStr t p.1 ≤ 2
  · simp only [hd, if_true, ite_true, Option.some.injEq] at hval
    have : m.1 = p.1 := by rw [← hval]
    rw [this]
    exact alookup_isSome_of_mem hp
  · simp [hd] at hval

theorem docEntry_none_of_unindexed {ix : InvertedIndex K} {t : String} (d : ℕ)
    (h : alookup t ix.index = none) : docEntry ix t d = none := by
  unfold docEntry
  rw [h]
  rfl

/-- A document has a postings entry for `t` exactly when `t`'s postings list
carries its id. -/
theorem docEntry_isSome_iff (ix : InvertedIndex K) (t : String) (d : ℕ) :
    (docEntry ix t d).isSome = true ↔
      ∃ e ∈ (alookup t ix.index).getD [], e.1 = d := by
  unfold docEntry
  constructor
  · intro h
    rcases hf : ((alookup t ix.index).getD []).find? (fun e => decide (e.1 = d)) with _ | e
    · rw [hf] at h
      cases h
    · exact ⟨e, List.mem_of_find?_eq_some hf, by simpa using List.find?_some hf⟩
  · rintro ⟨e, he, hed⟩
    rcases hf : ((alookup t ix.index).getD []).find? (fun e => decide (e.1 = d)) with _ | e'
    · rw [List.find?_eq_none] at hf
      exact absurd (by simpa using hed) (hf e he)
    · rw [hf]
      rfl

theorem bm25TfComp_zero {K : Type} [LinearOrderedField K] (dl : ℕ) (avg : K) :
    bm25TfComp K dl avg 0 = 0 := by
  unfold bm25TfComp
  simp

/-- Invariant of the keyword candidate map after processing the query-term
prefix `done`: keys are unique, every binding in a document's term map
reflects the postings index, and every document carried by the postings of a
processed term's resolution is present with that term bound. -/
def KWInv (ix : InvertedIndex K) (done : List (String × Bool))
    (c : List (ℕ × List (String × List ℕ))) : Prop :=
  ((c.map Prod.fst).Nodup) ∧
  (∀ d tm, alookup d c = some tm → ∀ t ps, alookup t tm = some ps →
    docEntry ix t d = some ps) ∧
  (∀ d, ∀ tw ∈ done, (docEntry ix (resolveForScore ix tw.1 tw.2).1 d).isSome = true →
    ∃ tm, alookup d c = some tm ∧
      (alookup (resolveForScore ix tw.1 tw.2).1 tm).isSome = true)

/-- Invariant of the fuzzy-resolution map after processing the prefix `done`:
every binding records a genuine fuzzy resolution of an unindexed term, and
every processed unindexed non-wildcard term with a fuzzy candidate is bound. -/
def FInv (ix : InvertedIndex K) (done : List (String × Bool))
    (f : List (String × String)) : Prop :=
  (∀ t s, alookup t f = some s → alookup t ix.index = none ∧
    ∃ dd, (ix.find_fuzzy_matches t).head? = some (s, dd)) ∧
  (∀ tw ∈ done, tw.2 = false → alookup tw.1 ix.index = none →
    ∀ m, (ix.find_fuzzy_matches tw.1).head? = some m → alookup tw.1 f = some m.1)

theorem kwinv_extend {ix : InvertedIndex K} {done : List (String × Bool)}
    {c : List (ℕ × List (String × List ℕ))} (hk : KWInv ix done c)
    (tw : String × Bool)
    (hvac : ∀ d, (docEntry ix (resolveForScore ix tw.1 tw.2).1 d).isSome = true →
      ∃ tm, alookup d c = some tm ∧
        (alookup (resolveForScore ix tw.1 tw.2).1 tm).isSome = true) :
    KWInv ix (done ++ [tw]) c := by
  refine ⟨hk.1, hk.2.1, ?_⟩
  intro d tw' htw' hds
  rcases List.mem_append.mp htw' with hdone | hone
  · exact hk.2.2 d tw' hdone hds
  · rw [List.mem_singleton.mp hone] at hds ⊢
    exact hvac d hds

theorem finv_extend {ix : InvertedIndex K} {done : List (String × Bool)}
    {f : List (String × String)} (hf : FInv ix done f) (tw : String × Bool)
    (hvac : tw.2 = false → alookup tw.1 ix.index = none →
      ∀ m, (ix.find_fuzzy_matches tw.1).head? = some m → alookup tw.1 f = some m.1) :
    FInv ix (done ++ [tw]) f := by
  refine ⟨hf.1, ?_⟩
  intro tw' htw'
  rcases List.mem_append.mp htw' with hdone | hone
  · exact hf.2 tw' hdone
  · rw [List.mem_singleton.mp hone]
    exact hvac

/-- Processing a term whose resolution `a` has postings `entries` preserves
the candidate invariant and establishes it for the new term. -/
theorem kwinv_insert {ix : InvertedIndex K} (hu : PostingsUnique ix)
    {done : List (String × Bool)} {c : List (ℕ × List (String × List ℕ))}
    (hk : KWInv ix done c) {a : String} {entries : List (ℕ × List ℕ)}
    (hent : alookup a ix.index = some entries) (tw : String × Bool)
    (ha : (resolveForScore ix tw.1 tw.2).1 = a) :
    KWInv ix (done ++ [tw]) (entries.foldl (fun cc e => cinsert e.1 a e.2 cc) c) := by
  have hn : (entries.map Prod.fst).Nodup := hu (a, entries) (mem_of_alookup hent)
  refine ⟨nodup_keys_cinsertFold _ _ hk.1, ?_, ?_⟩
  · intro d tm hdm t' ps hps
    rw [alookup_cinsertFold a entries c d hn] at hdm
    rcases hfind : entries.find? (fun e => decide (e.1 = d)) with _ | e
    · rw [hfind] at hdm
      exact hk.2.1 d tm hdm t' ps hps
    · rw [hfind] at hdm
      obtain heq : aset a e.2 ((alookup d c).getD []) = tm := Option.some.inj hdm
      rw [← heq] at hps
      by_cases ht' : t' = a
      · rw [ht', alookup_aset_self] at hps
        obtain rfl : e.2 = ps := Option.some.inj hps
        rw [ht']
        unfold docEntry
        rw [hent]
        simp [hfind]
      · rw [alookup_aset_ne _ _ ht'] at hps
        rcases hdc : alookup d c with _ | tm0
        · rw [hdc] at hps
          cases hps
        · rw [hdc] at hps
          exact hk.2.1 d tm0 hdc t' ps hps
  · intro d tw' htw' hds
    rcases List.mem_append.mp htw' with hdone | hone
    · obtain ⟨tm, hdc, hsome⟩ := hk.2.2 d tw' hdone hds
      rw [alookup_cinsertFold a entries c d hn]
      rcases hfind : entries.find? (fun e => decide (e.1 = d)) with _ | e
      · rw [hfind]
        exact ⟨tm, hdc, hsome⟩
      · rw [hfind]
        refine ⟨aset a e.2 ((alookup d c).getD []), rfl, ?_⟩
        rw [hdc]
        by_cases hta : (resolveForScore ix tw'.1 tw'.2).1 = a
        · rw [hta, alookup_aset_self]
          rfl
        · rw [alookup_aset_ne _ _ hta]
          exact hsome
    · rw [List.mem_singleton.mp hone] at hds ⊢
      rw [ha] at hds ⊢
      have hfs : (docEntry ix a d).isSome = true := hds
      unfold docEntry at hfs
      rw [hent] at hfs
      rcases hfind : entries.find? (fun e => decide (e.1 = d)) with _ | e
      · rw [show ((some entries).getD [] : List (ℕ × List ℕ)) = entries from rfl,
          hfind] at hfs
        cases hfs
      · rw [alookup_cinsertFold a entries c d hn, hfind]
        refine ⟨aset a e.2 ((alookup d c).getD []), rfl, ?_⟩
        rw [alookup_aset_self]
        rfl

/-- Recording a fuzzy resolution preserves the fuzzy-map invariant and
establishes it for the resolved term. -/
theorem finv_insert {ix : InvertedIndex K} {done : List (String × Bool)}
    {f : List (String × String)} (hf : FInv ix done f) {t : String} {m : String × ℕ}
    (hent : alookup t ix.index = none)
    (hh : (ix.find_fuzzy_matches t).head? = some m) :
    FInv ix (done ++ [(t, false)]) (aset t m.1 f) := by
  constructor
  · intro t' s hs
    by_cases ht : t' = t
    · rw [ht, alookup_aset_self] at hs
      obtain rfl : m.1 = s := Option.some.inj hs
      rw [ht]
      exact ⟨hent, m.2, hh⟩
    · rw [alookup_aset_ne _ _ ht] at hs
      exact hf.1 t' s hs
  · intro tw htw hw hnone m' hh'
    rcases List.mem_append.mp htw with hdone | hone
    · by_cases ht : tw.1 = t
      · rw [ht] at hh'
        obtain rfl : m = m' := Option.some.inj (hh.symm.trans hh')
        rw [ht, alookup_aset_self]
      · rw [alookup_aset_ne _ _ ht]
        exact hf.2 tw hdone hw hnone m' hh'
    · obtain heq : tw = (t, false) := List.mem_singleton.mp hone
      rw [heq] at hh'
      obtain rfl : m = m' := Option.some.inj (hh.symm.trans hh')
      rw [heq, alookup_aset_self]

/-- The candidate-collection loop preserves and extends both invariants along
the processed prefix. -/
theorem buildCandidates_inv {ix : InvertedIndex K} (hu : PostingsUnique ix) (nTotal : ℕ) :
    ∀ (todo done : List (String × Bool)) (c : List (ℕ × List (String × List ℕ)))
      (f : List (String × String))
      (out : List (ℕ × List (String × List ℕ)) × List (String × String)),
      KWInv ix done c → FInv ix done f →
      buildCandidates ix nTotal todo c f = some out →
      KWInv ix (done ++ todo) out.1 ∧ FInv ix (done ++ todo) out.2 := by
  intro todo
  induction todo with
  | nil =>
    intro done c f out hk hf h
    obtain rfl : (c, f) = out := Option.some.inj h
    simpa using ⟨hk, hf⟩
  | cons tw rest ih =>
    intro done c f out hk hf h
    obtain ⟨t, w⟩ := tw
    rw [show done ++ (t, w) :: rest = (done ++ [(t, w)]) ++ rest by simp]
    simp only [buildCandidates] at h
    rcases hent : alookup t ix.index with _ | entries
    · rw [hent] at h
      cases w
      · simp only [Bool.false_eq_true, if_false, ite_false] at h
        rcases hh : (ix.find_fuzzy_matches t).head? with _ | m
        · simp only [hh] at h
          by_cases hn1 : nTotal = 1
          · rw [if_pos hn1] at h
            cases h
          · rw [if_neg hn1] at h
            refine ih (done ++ [(t, false)]) c f out ?_ ?_ h
            · refine kwinv_extend hk (t, false) ?_
              intro d hds
              rw [show (resolveForScore ix (t, false).1 (t, false).2).1 = t from by
                simp [resolveForScore, hent, hh]] at hds
              rw [docEntry_none_of_unindexed d hent] at hds
              cases hds
            · refine finv_extend hf (t, false) ?_
              intro _ _ m hm
              rw [hh] at hm
              cases hm
        · simp only [hh] at h
          rcases hment : alookup m.1 ix.index with _ | entries2
          · have := fuzzy_head_indexed hh
            rw [hment] at this
            cases this
          · simp only [hment] at h
            refine ih (done ++ [(t, false)]) _ _ out ?_ (finv_insert hf hent hh) h
            exact kwinv_insert hu hk hment (t, false)
              (by simp [resolveForScore, hent, hh])
      · simp only [if_true, ite_true] at h
        refine ih (done ++ [(t, true)]) c f out ?_ ?_ h
        · refine kwinv_extend hk (t, true) ?_
          intro d hds
          rw [show (resolveForScore ix (t, true).1 (t, true).2).1 = t from by
            simp [resolveForScore]] at hds
          rw [docEntry_none_of_unindexed d hent] at hds
          cases hds
        · exact finv_extend hf (t, true) (fun hfalse => absurd hfalse (by simp))
    · rw [hent] at h
      refine ih (done ++ [(t, w)]) _ f out ?_ ?_ h
      · refine kwinv_insert hu hk hent (t, w) ?_
        cases w
        · simp [resolveForScore, hent]
        · simp [resolveForScore]
      · refine finv_extend hf (t, w) ?_
        intro _ habs
        rw [hent] at habs
        cases habs

/-- Under the fuzzy-map invariant, the code's `actual_term` substitution
coincides with the specification's term resolution, and the code's penalty
test coincides with the specification's fuzzy flag. -/
theorem resolve_facts {ix : InvertedIndex K} {f : List (String × String)}
    (hf1 : ∀ t s, alookup t f = some s → alookup t ix.index = none ∧
      ∃ dd, (ix.find_fuzzy_matches t).head? = some (s, dd))
    (tw : String × Bool)
    (hf2 : tw.2 = false → alookup tw.1 ix.index = none →
      ∀ m, (ix.find_fuzzy_matches tw.1).head? = some m → alookup tw.1 f = some m.1) :
    resolveTerm f tw.1 tw.2 = (resolveForScore ix tw.1 tw.2).1 ∧
    ((tw.2 = false ∧ (alookup tw.1 f).isSome = true) ↔
      (resolveForScore ix tw.1 tw.2).2 = true) := by
  obtain ⟨t, w⟩ := tw
  cases w
  · rcases hidx : alookup t ix.index with _ | e
    · rcases hh : (ix.find_fuzzy_matches t).head? with _ | m
      · have hn : alookup t f = none := by
          rcases hlf : alookup t f with _ | s
          · rfl
          · obtain ⟨dd, hdd⟩ := (hf1 t s hlf).2
            rw [hh] at hdd
            cases hdd
        simp [resolveTerm, resolveForScore, hidx, hh, hn]
      · have hlf : alookup t f = some m.1 := hf2 rfl hidx m hh
        simp [resolveTerm, resolveForScore, hidx, hh, hlf]
    · have hn : alookup t f = none := by
        rcases hlf : alookup t f with _ | s
        · rfl
        · have := (hf1 t s hlf).1
          rw [hidx] at this
          cases this
      simp [resolveTerm, resolveForScore, hidx, hn]
  · simp [resolveTerm, resolveForScore]

/-- For a candidate document that carries the term's resolution, the code's
per-term score contribution equals the specification's. -/
theorem termContribution_eq {ix : InvertedIndex ℝ} {f : List (String × String)}
    {tm : List (String × List ℕ)} {d : ℕ}
    (hc2 : ∀ t ps, alookup t tm = some ps → docEntry ix t d = some ps)
    (tw : String × Bool)
    (hres : resolveTerm f tw.1 tw.2 = (resolveForScore ix tw.1 tw.2).1)
    (hpen : (tw.2 = false ∧ (alookup tw.1 f).isSome = true) ↔
      (resolveForScore ix tw.1 tw.2).2 = true)
    (hpres : (alookup (resolveForScore ix tw.1 tw.2).1 tm).isSome = true) :
    termContribution bm25Idf ix f tm d tw = contribClaim ix d tw := by
  obtain ⟨ps, hps⟩ := Option.isSome_iff_exists.mp hpres
  have hde : docEntry ix (resolveForScore ix tw.1 tw.2).1 d = some ps :=
    hc2 _ ps hps
  have hdp : docPositions ix (resolveForScore ix tw.1 tw.2).1 d = ps := by
    unfold docPositions
    rw [hde]
    rfl
  simp only [termContribution, contribClaim]
  rw [hres, hps, hdp]
  by_cases hz : ps.length = 0
  · simp [hz, bm25TfComp_zero]
  · rw [if_neg (by simpa using hz)]
    by_cases hfz : (resolveForScore ix tw.1 tw.2).2 = true
    · rw [if_pos (hpen.mpr hfz), if_pos hfz]
      rw [mul_comm]
      simp
    · rw [if_neg (fun hc => hfz (hpen.mp hc)), if_neg hfz]
      rw [one_mul]
      simp

/-- The early return of the candidate loop only fires on a non-wildcard term
that is unindexed and has no fuzzy candidate. -/
theorem buildCandidates_none {ix : InvertedIndex K} (nTotal : ℕ) :
    ∀ (todo : List (String × Bool)) (c : List (ℕ × List (String × List ℕ)))
      (f : List (String × String)),
      buildCandidates ix nTotal todo c f = none →
      ∃ tw ∈ todo, tw.2 = false ∧ alookup tw.1 ix.index = none ∧
        (ix.find_fuzzy_matches tw.1).head? = none := by
  intro todo
  induction todo with
  | nil =>
    intro c f h
    cases h
  | cons tw rest ih =>
    intro c f h
    obtain ⟨t, w⟩ := tw
    simp only [buildCandidates] at h
    rcases hent : alookup t ix.index with _ | entries
    · simp only [hent] at h
      cases w
      · simp only [Bool.false_eq_true, if_false, ite_false] at h
        rcases hh : (ix.find_fuzzy_matches t).head? with _ | m
        · simp only [hh] at h
          by_cases hn1 : nTotal = 1
          · exact ⟨(t, false), List.mem_cons_self _ _, rfl, hent, hh⟩
          · rw [if_neg hn1] at h
            obtain ⟨tw', htw', hp⟩ := ih c f h
            exact ⟨tw', List.mem_cons_of_mem _ htw', hp⟩
        · simp only [hh] at h
          rcases hment : alookup m.1 ix.index with _ | entries2
          · simp only [hment] at h
            obtain ⟨tw', htw', hp⟩ := ih c f h
            exact ⟨tw', List.mem_cons_of_mem _ htw', hp⟩
          · simp only [hment] at h
            obtain ⟨tw', htw', hp⟩ := ih _ _ h
            exact ⟨tw', List.mem_cons_of_mem _ htw', hp⟩
      · simp only [if_true, ite_true] at h
        obtain ⟨tw', htw', hp⟩ := ih c f h
        exact ⟨tw', List.mem_cons_of_mem _ htw', hp⟩
    · simp only [hent] at h
      obtain ⟨tw', htw', hp⟩ := ih _ f h
      exact ⟨tw', List.mem_cons_of_mem _ htw', hp⟩

/-- C2: for every keyword query (non-empty processed term list, over an index
satisfying the postings-uniqueness and store-keying invariants, which hold in
every reachable state) with the literal `log10`-based BM25 idf: every returned
result's score is the sum over the query terms of
`idf(t) * tf_comp(t)` (`k1 = 1.2`, `b = 0.75`, `avgdl` floored at `1`), with
fuzzy-resolved terms contributing half; a stored document is returned iff it
qualifies (the postings of every resolved term carry it); and results are
sorted by descending score. -/
theorem c2_keyword_ranking (hl : List String → String → String)
    (ix : InvertedIndex ℝ) (terms : List (String × Bool))
    (hu : PostingsUnique ix) (hkeys : StoreKeyed ix) (hne : terms ≠ []) :
    ∀ out, ix.perform_keyword_search_and_rank hl bm25Idf terms = some out →
      (∀ r ∈ out, r.score = (terms.map (contribClaim ix r.doc.id)).sum) ∧
      (∀ d doc, alookup d ix.documents = some doc →
        ((∃ r ∈ out, r.doc = doc) ↔ Qualifies ix terms d)) ∧
      out.Pairwise (fun a b => b.score ≤ a.score) := by
  intro out hres
  unfold InvertedIndex.perform_keyword_search_and_rank at hres
  rcases hbc : buildCandidates ix terms.length terms [] [] with _ | ⟨cands, f⟩
  · simp only [hbc] at hres
    obtain rfl : ([] : List (SearchResult ℝ)) = out := Option.some.inj hres
    refine ⟨fun r hr => absurd hr (List.not_mem_nil _), ?_, List.Pairwise.nil⟩
    intro d doc hdoc
    constructor
    · rintro ⟨r, hr, _⟩
      cases hr
    · intro hq
      obtain ⟨tw, htw, hw, hnone, hh⟩ := buildCandidates_none terms.length terms [] [] hbc
      obtain ⟨e, he, _⟩ := hq tw htw
      rw [show (resolveForScore ix tw.1 tw.2).1 = tw.1 from by
        rw [show tw.2 = false from hw]
        simp [resolveForScore, hnone, hh]] at he
      rw [hnone] at he
      cases he
  · simp only [hbc] at hres
    have hinv := buildCandidates_inv hu terms.length terms [] [] [] (cands, f)
      ⟨by simp, fun d tm h => by simp [alookup] at h,
        fun d tw htw => absurd htw (List.not_mem_nil _)⟩
      ⟨fun t s h => by simp [alookup] at h,
        fun tw htw => absurd htw (List.not_mem_nil _)⟩ hbc
    simp only [List.nil_append] at hinv
    obtain ⟨⟨hkc, hc2, hc3⟩, hf1, hf2⟩ := hinv
    have hrf : ∀ tw ∈ terms,
        resolveTerm f tw.1 tw.2 = (resolveForScore ix tw.1 tw.2).1 ∧
        ((tw.2 = false ∧ (alookup tw.1 f).isSome = true) ↔
          (resolveForScore ix tw.1 tw.2).2 = true) :=
      fun tw htw => resolve_facts hf1 tw (hf2 tw htw)
    refine ⟨?_, ?_, ?_⟩
    · intro r hr
      obtain ⟨sd, hsd, hdoc', hscore⟩ := buildResults_mem_fwd _ ix _ out hres r hr
      have hsd0 := (perm_descPairs _).mem_iff.mp hsd
      obtain ⟨p, hp, hpe⟩ := List.mem_map.mp hsd0
      obtain ⟨hpc, hall⟩ := List.mem_filter.mp hp
      have halltm := List.all_eq_true.mp hall
      have hlook : alookup p.1 cands = some p.2 := alookup_of_mem hkc hpc
      have hid : r.doc.id = sd.2 := hkeys (sd.2, r.doc) (mem_of_alookup hdoc')
      rw [hscore, hid, ← hpe]
      show docScore bm25Idf ix f terms p.2 p.1 =
        (terms.map (contribClaim ix p.1)).sum
      unfold docScore
      refine congrArg List.sum (List.map_congr_left ?_)
      intro tw htw
      refine termContribution_eq (hc2 p.1 p.2 hlook) tw (hrf tw htw).1 (hrf tw htw).2 ?_
      have := halltm tw htw
      rw [(hrf tw htw).1] at this
      exact this
    · intro d doc hdoc
      have hdid : doc.id = d := hkeys (d, doc) (mem_of_alookup hdoc)
      constructor
      · rintro ⟨r, hr, rfl⟩
        obtain ⟨sd, hsd, hdoc', _⟩ := buildResults_mem_fwd _ ix _ out hres r hr
        have hsd0 := (perm_descPairs _).mem_iff.mp hsd
        obtain ⟨p, hp, hpe⟩ := List.mem_map.mp hsd0
        obtain ⟨hpc, hall⟩ := List.mem_filter.mp hp
        have halltm := List.all_eq_true.mp hall
        have hlook : alookup p.1 cands = some p.2 := alookup_of_mem hkc hpc
        have hid2 : r.doc.id = sd.2 := hkeys (sd.2, r.doc) (mem_of_alookup hdoc')
        have hdp : d = p.1 := by
          rw [← hdid, hid2, ← hpe]
        intro tw htw
        have hpres := halltm tw htw
        rw [(hrf tw htw).1] at hpres
        obtain ⟨ps, hps⟩ := Option.isSome_iff_exists.mp hpres
        have hde := hc2 p.1 p.2 hlook _ ps hps
        rw [hdp]
        exact (docEntry_isSome_iff ix _ p.1).mp (by rw [hde]; rfl)
      · intro hq
        obtain ⟨tw0, htw0⟩ := List.exists_mem_of_ne_nil terms hne
        obtain ⟨e0, he0, he0d⟩ := hq tw0 htw0
        have hds0 : (docEntry ix (resolveForScore ix tw0.1 tw0.2).1 d).isSome = true :=
          (docEntry_isSome_iff ix _ d).mpr ⟨e0, he0, he0d⟩
        obtain ⟨tm, hdc, _⟩ := hc3 d tw0 htw0 hds0
        have hall : allTermsPresent terms f tm = true := by
          refine List.all_eq_true.mpr ?_
          intro tw htw
          obtain ⟨e, he, hed⟩ := hq tw htw
          have hds : (docEntry ix (resolveForScore ix tw.1 tw.2).1 d).isSome = true :=
            (docEntry_isSome_iff ix _ d).mpr ⟨e, he, hed⟩
          obtain ⟨tm', hdc', hsome'⟩ := hc3 d tw htw hds
          obtain rfl : tm = tm' := Option.some.inj (hdc.symm.trans hdc')
          rw [(hrf tw htw).1]
          exact hsome'
        have hpfilter : (d, tm) ∈ cands.filter (fun p => allTermsPresent terms f p.2) :=
          List.mem_filter.mpr ⟨mem_of_alookup hdc, hall⟩
        have hsd : (docScore bm25Idf ix f terms tm d, d) ∈
            descPairs ((cands.filter (fun p => allTermsPresent terms f p.2)).map
              (fun p => (docScore bm25Idf ix f terms p.2 p.1, p.1))) :=
          (perm_descPairs _).mem_iff.mpr (List.mem_map.mpr ⟨(d, tm), hpfilter, rfl⟩)
        obtain ⟨r, hr, hrdoc, _⟩ := buildResults_mem_bwd _ ix _ out hres _ hsd doc hdoc
        exact ⟨r, hr, hrdoc⟩
    · exact buildResults_sorted _ ix _ out hres (pairwise_descPairs _)

/-- The two-document concrete index over the reals (the ranking claim is
stated at `K = ℝ` because of its real-valued `log10` idf). -/
noncomputable def ixR : InvertedIndex ℝ :=
  ((InvertedIndex.new ℝ).add_document tokW docW1).add_document tokW docW2

/-- Witness for C2 at a concrete two-document index and the one-term keyword
query "apple". -/
theorem c2_keyword_ranking_witness :
    PostingsUnique ixR ∧ StoreKeyed ixR ∧
    ([("apple", false)] : List (String × Bool)) ≠ [] ∧
    (∀ out, ixR.perform_keyword_search_and_rank hlW bm25Idf [("apple", false)] = some out →
      (∀ r ∈ out, r.score =
        ((([("apple", false)] : List (String × Bool))).map (contribClaim ixR r.doc.id)).sum) ∧
      (∀ d doc, alookup d ixR.documents = some doc →
        ((∃ r ∈ out, r.doc = doc) ↔ Qualifies ixR [("apple", false)] d)) ∧
      out.Pairwise (fun a b => b.score ≤ a.score)) :=
  ⟨by decide, by decide, by decide,
    c2_keyword_ranking hlW ixR [("apple", false)] (by decide) (by decide) (by decide)⟩

end Infospark
